import Mathlib

/-!
Alpha code emitter (`lib/Target/Alpha/AlphaCodeEmitter.cpp`).

A shallow embedding of the Alpha machine-code emitter: the register indexer
`getAlphaRegNumber`, the operand resolver `getMachineOpValue`, the block
emitter `emitBasicBlock` and the function driver `runOnMachineFunction`.

The code emitter object `MCE` (the output sink) is an abstract class of the
code generator; it is a parameter of every operation here, given as a record
of state-passing functions.  `abort()` is the `Except.error` result.
-/

namespace Alpha

/-! ## Data model -/

/-- Register identifiers (`Alpha::R0` .. `Alpha::R31`, `Alpha::F0` .. `Alpha::F31`);
every other `unsigned` register number is `other`. -/
inductive Reg
  | R0 | R1 | R2 | R3 | R4 | R5 | R6 | R7
  | R8 | R9 | R10 | R11 | R12 | R13 | R14 | R15
  | R16 | R17 | R18 | R19 | R20 | R21 | R22 | R23
  | R24 | R25 | R26 | R27 | R28 | R29 | R30 | R31
  | F0 | F1 | F2 | F3 | F4 | F5 | F6 | F7
  | F8 | F9 | F10 | F11 | F12 | F13 | F14 | F15
  | F16 | F17 | F18 | F19 | F20 | F21 | F22 | F23
  | F24 | F25 | F26 | F27 | F28 | F29 | F30 | F31
  | other (id : Nat)
  deriving Repr

/-- Opcodes the emitter names (`Alpha::BSR`, ..., `TargetInstrInfo::IMPLICIT_DEF`);
every other opcode of the target is `other`. -/
inductive Opcode
  | BSR
  | LDLr | LDQr | LDBUr | LDWUr | LDSr | LDTr | LDAr
  | STQr | STLr | STWr | STBr | STSr | STTr
  | LDAHr
  | LDQl
  | LDAg | LDAHg
  | ALTENT | PCLABEL | MEMLABEL | IMPLICIT_DEF
  | other (id : Nat)
  deriving DecidableEq, Repr

/-- Relocation types of `AlphaRelocations.h` used by the emitter. -/
inductive RelocKind
  | reloc_literal | reloc_gprellow | reloc_gprelhigh | reloc_gpdist | reloc_bsr
  deriving DecidableEq, Repr

/-- A global value; `isFunction` is the answer of `isa<Function>`. -/
structure GlobalValue where
  id : Nat
  isFunction : Bool
  deriving DecidableEq, Repr

/-- A machine operand: a tagged variant.  `FrameIndex` and `JumpTableIndex`
stand for the tags the emitter has no branch for. -/
inductive MachineOperand
  | Register (reg : Reg)
  | Immediate (imm : Int)
  | GlobalAddress (gv : GlobalValue)
  | ExternalSymbol (name : String)
  | ConstantPoolIndex (index : Nat)
  | MachineBasicBlock (mbb : Nat)
  | FrameIndex (index : Int)
  | JumpTableIndex (index : Nat)
  deriving Repr

namespace MachineOperand

def isReg : MachineOperand → Bool
  | Register _ => true
  | _ => false

def isImm : MachineOperand → Bool
  | Immediate _ => true
  | _ => false

def isGlobal : MachineOperand → Bool
  | GlobalAddress _ => true
  | _ => false

def isSymbol : MachineOperand → Bool
  | ExternalSymbol _ => true
  | _ => false

def isCPI : MachineOperand → Bool
  | ConstantPoolIndex _ => true
  | _ => false

def isMBB : MachineOperand → Bool
  | MachineBasicBlock _ => true
  | _ => false

end MachineOperand

/-- A machine instruction: an opcode and its operands in order. -/
structure MachineInstr where
  opcode : Opcode
  operands : List MachineOperand
  deriving Repr

/-- A basic block: its number and its instructions in program order. -/
structure MachineBasicBlock where
  number : Nat
  instrs : List MachineInstr
  deriving Repr

/-- A machine function: its blocks in layout order. -/
structure MachineFunction where
  blocks : List MachineBasicBlock
  deriving Repr

/-- The ways the emitter terminates the process. -/
inductive Abort
  | unhandledReg
  | unknownRelocatableInstruction
  | unknownMachineOperand
  | assertion
  deriving DecidableEq, Repr

/-- Modelled from the spec: the relocation record (`MachineRelocation.h` is not
among the sources).  A record is kept as the factory call that built it, with
the arguments in the order the emitter passes them: PC offset, relocation
kind, target payload, extra offset, then the boolean flags of that call. -/
inductive MachineRelocation
  | getGV (offset : Int) (kind : RelocKind) (gv : GlobalValue) (cst : Int)
      (callable : Bool) (gotRelative : Bool)
  | getExtSym (offset : Int) (kind : RelocKind) (name : String) (cst : Int)
      (flag : Bool)
  | getConstPool (offset : Int) (kind : RelocKind) (index : Nat) (cst : Int)
  | getBB (offset : Int) (kind : RelocKind) (mbb : Nat)
  deriving DecidableEq, Repr

/-- The target payload of a relocation record. -/
inductive RelocTarget
  | global (gv : GlobalValue)
  | symbol (name : String)
  | constPool (index : Nat)
  | block (mbb : Nat)
  deriving DecidableEq, Repr

namespace MachineRelocation

/-- Modelled from the spec: the record's program-counter offset. -/
def offset : MachineRelocation → Int
  | getGV o _ _ _ _ _ => o
  | getExtSym o _ _ _ _ => o
  | getConstPool o _ _ _ => o
  | getBB o _ _ => o

/-- Modelled from the spec: the record's relocation kind. -/
def kind : MachineRelocation → RelocKind
  | getGV _ k _ _ _ _ => k
  | getExtSym _ k _ _ _ => k
  | getConstPool _ k _ _ => k
  | getBB _ k _ => k

/-- Modelled from the spec: the record's target payload. -/
def target : MachineRelocation → RelocTarget
  | getGV _ _ g _ _ _ => .global g
  | getExtSym _ _ n _ _ => .symbol n
  | getConstPool _ _ i _ => .constPool i
  | getBB _ _ b => .block b

/-- Modelled from the spec: the record's extra signed offset (default 0). -/
def extraOffset : MachineRelocation → Int
  | getGV _ _ _ c _ _ => c
  | getExtSym _ _ _ c _ => c
  | getConstPool _ _ _ c => c
  | getBB _ _ _ => 0

end MachineRelocation

/-- The code emitter `MCE` the pass writes to, as state-passing functions over
a sink state `σ`. -/
structure MachineCodeEmitter (σ : Type) where
  startFunction : MachineFunction → σ → σ
  finishFunction : MachineFunction → σ → Bool × σ
  StartMachineBasicBlock : MachineBasicBlock → σ → σ
  getCurrentPCOffset : σ → Int
  emitWordLE : Nat → σ → σ
  addRelocation : MachineRelocation → σ → σ

/-! ## The emitter -/

/-- The register indexer: the `switch` of `getAlphaRegNumber`. -/
def getAlphaRegNumber : Reg → Except Abort Nat
  | .R0 | .F0 => .ok 0
  | .R1 | .F1 => .ok 1
  | .R2 | .F2 => .ok 2
  | .R3 | .F3 => .ok 3
  | .R4 | .F4 => .ok 4
  | .R5 | .F5 => .ok 5
  | .R6 | .F6 => .ok 6
  | .R7 | .F7 => .ok 7
  | .R8 | .F8 => .ok 8
  | .R9 | .F9 => .ok 9
  | .R10 | .F10 => .ok 10
  | .R11 | .F11 => .ok 11
  | .R12 | .F12 => .ok 12
  | .R13 | .F13 => .ok 13
  | .R14 | .F14 => .ok 14
  | .R15 | .F15 => .ok 15
  | .R16 | .F16 => .ok 16
  | .R17 | .F17 => .ok 17
  | .R18 | .F18 => .ok 18
  | .R19 | .F19 => .ok 19
  | .R20 | .F20 => .ok 20
  | .R21 | .F21 => .ok 21
  | .R22 | .F22 => .ok 22
  | .R23 | .F23 => .ok 23
  | .R24 | .F24 => .ok 24
  | .R25 | .F25 => .ok 25
  | .R26 | .F26 => .ok 26
  | .R27 | .F27 => .ok 27
  | .R28 | .F28 => .ok 28
  | .R29 | .F29 => .ok 29
  | .R30 | .F30 => .ok 30
  | .R31 | .F31 => .ok 31
  | .other _ => .error .unhandledReg

/-- The conversion of an `int64_t` to `unsigned`: reduction modulo `2^32`. -/
def toUnsigned (v : Int) : Nat := (v % 2 ^ 32).toNat

/-- The conversion of an `int64_t` to `int`: the value modulo `2^32`, read as
a signed 32-bit number. -/
def toInt32 (v : Int) : Int := (v + 2 ^ 31) % 2 ^ 32 - 2 ^ 31

/-- The expression `MI.getOperand(3).getImm()`: both accessors assert. -/
def getOperand3Imm (MI : MachineInstr) : Except Abort Int :=
  match (MI.operands[3]? : Option MachineOperand) with
  | some (.Immediate c) => .ok c
  | _ => .error .assertion

/-- The opcode `switch` of `getMachineOpValue`: the values of `Reloc`, `Offset`
and `useGOT` after it. -/
def relocSwitch (MI : MachineInstr) : Except Abort (RelocKind × Int × Bool) :=
  match MI.opcode with
  | .BSR => .ok (.reloc_bsr, 0, false)
  | .LDLr | .LDQr | .LDBUr | .LDWUr | .LDSr | .LDTr | .LDAr
  | .STQr | .STLr | .STWr | .STBr | .STSr | .STTr => .ok (.reloc_gprellow, 0, false)
  | .LDAHr => .ok (.reloc_gprelhigh, 0, false)
  | .LDQl => .ok (.reloc_literal, 0, true)
  | .LDAg | .LDAHg =>
    match getOperand3Imm MI with
    | .ok c => .ok (.reloc_gpdist, toInt32 c, false)
    | .error e => .error e
  | _ => .error .unknownRelocatableInstruction

/-- The operand resolver `getMachineOpValue`: the field value `rv` and the sink
after the call, or an abort. -/
def getMachineOpValue {σ : Type} (MCE : MachineCodeEmitter σ) (MI : MachineInstr)
    (MO : MachineOperand) (s : σ) : Except Abort (Nat × σ) :=
  if MO.isReg then
    match MO with
    | .Register r =>
      match getAlphaRegNumber r with
      | .ok n => .ok (n, s)
      | .error e => .error e
    | _ => .error .assertion
  else if MO.isImm then
    match MO with
    | .Immediate v => .ok (toUnsigned v, s)
    | _ => .error .assertion
  else if MO.isGlobal || MO.isSymbol || MO.isCPI then
    match relocSwitch MI with
    | .error e => .error e
    | .ok (Reloc, Offset, useGOT) =>
      match MO with
      | .GlobalAddress gv =>
        .ok (0, MCE.addRelocation
          (.getGV (MCE.getCurrentPCOffset s) Reloc gv Offset gv.isFunction useGOT) s)
      | .ExternalSymbol name =>
        .ok (0, MCE.addRelocation
          (.getExtSym (MCE.getCurrentPCOffset s) Reloc name Offset true) s)
      | .ConstantPoolIndex index =>
        .ok (0, MCE.addRelocation
          (.getConstPool (MCE.getCurrentPCOffset s) Reloc index Offset) s)
      | _ => .error .assertion
  else if MO.isMBB then
    match MO with
    | .MachineBasicBlock mbb =>
      .ok (0, MCE.addRelocation (.getBB (MCE.getCurrentPCOffset s) .reloc_bsr mbb) s)
    | _ => .error .assertion
  else
    .error .unknownMachineOperand

/-- Modelled from the spec: the TableGen-generated encoder body
(`AlphaGenCodeEmitter.inc`) is not among the sources.  Every operand of the
instruction is resolved by `getMachineOpValue`, in operand order. -/
def resolveOperands {σ : Type} (MCE : MachineCodeEmitter σ) (MI : MachineInstr) :
    List MachineOperand → σ → Except Abort (List Nat × σ)
  | [], s => .ok ([], s)
  | MO :: rest, s =>
    match getMachineOpValue MCE MI MO s with
    | .error e => .error e
    | .ok (v, s1) =>
      match resolveOperands MCE MI rest s1 with
      | .error e => .error e
      | .ok (vs, s2) => .ok (v :: vs, s2)

/-- Modelled from the spec: `getBinaryCodeForInstr`, whose generated body is not
among the sources.  The resolved field values and the opcode go to the
external pure word encoder `encode`; the result is an `unsigned` word. -/
def getBinaryCodeForInstr {σ : Type} (encode : Opcode → List Nat → Nat)
    (MCE : MachineCodeEmitter σ) (MI : MachineInstr) (s : σ) : Except Abort (Nat × σ) :=
  match resolveOperands MCE MI MI.operands s with
  | .error e => .error e
  | .ok (vs, s1) => .ok (encode MI.opcode vs % 2 ^ 32, s1)

/-- The instruction loop of `emitBasicBlock`. -/
def emitInstrs {σ : Type} (encode : Opcode → List Nat → Nat) (MCE : MachineCodeEmitter σ) :
    List MachineInstr → σ → Except Abort σ
  | [], s => .ok s
  | MI :: rest, s =>
    match MI.opcode with
    | .ALTENT | .PCLABEL | .MEMLABEL | .IMPLICIT_DEF => emitInstrs encode MCE rest s
    | _ =>
      match getBinaryCodeForInstr encode MCE MI s with
      | .error e => .error e
      | .ok (w, s1) => emitInstrs encode MCE rest (MCE.emitWordLE w s1)

/-- The block emitter `emitBasicBlock`. -/
def emitBasicBlock {σ : Type} (encode : Opcode → List Nat → Nat) (MCE : MachineCodeEmitter σ)
    (MBB : MachineBasicBlock) (s : σ) : Except Abort σ :=
  emitInstrs encode MCE MBB.instrs (MCE.StartMachineBasicBlock MBB s)

/-- The block loop of `runOnMachineFunction`. -/
def emitBlocks {σ : Type} (encode : Opcode → List Nat → Nat) (MCE : MachineCodeEmitter σ) :
    List MachineBasicBlock → σ → Except Abort σ
  | [], s => .ok s
  | MBB :: rest, s =>
    match emitBasicBlock encode MCE MBB s with
    | .error e => .error e
    | .ok s1 => emitBlocks encode MCE rest s1

/-- One pass through the body of the `do` loop of `runOnMachineFunction`:
`startFunction`, then every block. -/
def emitFunctionBody {σ : Type} (encode : Opcode → List Nat → Nat) (MCE : MachineCodeEmitter σ)
    (MF : MachineFunction) (s : σ) : Except Abort σ :=
  emitBlocks encode MCE MF.blocks (MCE.startFunction MF s)

/-- The function driver `runOnMachineFunction`.  The `do ... while` loop has no
bound in the source, so the loop runs on `fuel`: `none` is "still looping when
the fuel ran out". -/
def runOnMachineFunction {σ : Type} (encode : Opcode → List Nat → Nat)
    (MCE : MachineCodeEmitter σ) (MF : MachineFunction) : Nat → σ → Option (Except Abort (Bool × σ))
  | 0, _ => none
  | fuel + 1, s =>
    match emitFunctionBody encode MCE MF s with
    | .error e => some (.error e)
    | .ok s1 =>
      match MCE.finishFunction MF s1 with
      | (true, s2) => runOnMachineFunction encode MCE MF fuel s2
      | (false, s2) => some (.ok (false, s2))

/-! ## Observing the calls made on the sink -/

/-- A call the pass makes on the sink that may change it. -/
inductive SinkCall
  | startFunction (MF : MachineFunction)
  | finishFunction (MF : MachineFunction)
  | StartMachineBasicBlock (MBB : MachineBasicBlock)
  | emitWordLE (w : Nat)
  | addRelocation (r : MachineRelocation)
  deriving Repr

/-- The effect of one call on a sink. -/
def SinkCall.run {σ : Type} (MCE : MachineCodeEmitter σ) : SinkCall → σ → σ
  | .startFunction MF, s => MCE.startFunction MF s
  | .finishFunction MF, s => (MCE.finishFunction MF s).2
  | .StartMachineBasicBlock MBB, s => MCE.StartMachineBasicBlock MBB s
  | .emitWordLE w, s => MCE.emitWordLE w s
  | .addRelocation r, s => MCE.addRelocation r s

/-- The effect of a sequence of calls, first call first. -/
def replay {σ : Type} (MCE : MachineCodeEmitter σ) : List SinkCall → σ → σ
  | [], s => s
  | c :: cs, s => replay MCE cs (c.run MCE s)

/-- The sink `MCE` with a log: every call is forwarded to `MCE` and appended
to the log, so a run against `traced MCE` shows which calls were made. -/
def traced {σ : Type} (MCE : MachineCodeEmitter σ) : MachineCodeEmitter (σ × List SinkCall) where
  startFunction MF s := (MCE.startFunction MF s.1, s.2 ++ [.startFunction MF])
  finishFunction MF s :=
    ((MCE.finishFunction MF s.1).1, ((MCE.finishFunction MF s.1).2, s.2 ++ [.finishFunction MF]))
  StartMachineBasicBlock MBB s :=
    (MCE.StartMachineBasicBlock MBB s.1, s.2 ++ [.StartMachineBasicBlock MBB])
  getCurrentPCOffset s := MCE.getCurrentPCOffset s.1
  emitWordLE w s := (MCE.emitWordLE w s.1, s.2 ++ [.emitWordLE w])
  addRelocation r s := (MCE.addRelocation r s.1, s.2 ++ [.addRelocation r])

/-- The state of a buffer sink. -/
structure Buffer where
  words : List Nat
  relocs : List MachineRelocation
  pc : Int
  labels : List (Nat × Int)
  retries : Nat
  deriving DecidableEq, Repr

/-- Modelled from the spec: an output sink (word stream, relocation list and PC
counter; the concrete emitters are not among the sources).  `startFunction`
starts over with an empty buffer, `emitWordLE` writes one four-byte word,
`StartMachineBasicBlock` records the address of the block, and
`finishFunction` asks for a retry as long as `retries` is not used up. -/
def bufferSink : MachineCodeEmitter Buffer where
  startFunction _ b := { b with words := [], relocs := [], pc := 0, labels := [] }
  finishFunction _ b := (decide (0 < b.retries), { b with retries := b.retries - 1 })
  StartMachineBasicBlock MBB b := { b with labels := b.labels ++ [(MBB.number, b.pc)] }
  getCurrentPCOffset b := b.pc
  emitWordLE w b := { b with words := b.words ++ [w], pc := b.pc + 4 }
  addRelocation r b := { b with relocs := b.relocs ++ [r] }

/-- A sink with no state: every call is a no-op and the PC offset is 0.  It
is used to read off the value an operation returns. -/
def unitSink : MachineCodeEmitter Unit where
  startFunction _ _ := ()
  finishFunction _ _ := (false, ())
  StartMachineBasicBlock _ _ := ()
  getCurrentPCOffset _ := 0
  emitWordLE _ _ := ()
  addRelocation _ _ := ()

/-! ## Vocabulary of the specification -/

/-- The general-purpose bank in index order: `bankR[i]` is the register `R_i`. -/
def bankR : List Reg :=
  [.R0, .R1, .R2, .R3, .R4, .R5, .R6, .R7, .R8, .R9, .R10, .R11, .R12, .R13, .R14, .R15,
   .R16, .R17, .R18, .R19, .R20, .R21, .R22, .R23, .R24, .R25, .R26, .R27, .R28, .R29, .R30, .R31]

/-- The floating-point bank in index order: `bankF[i]` is the register `F_i`. -/
def bankF : List Reg :=
  [.F0, .F1, .F2, .F3, .F4, .F5, .F6, .F7, .F8, .F9, .F10, .F11, .F12, .F13, .F14, .F15,
   .F16, .F17, .F18, .F19, .F20, .F21, .F22, .F23, .F24, .F25, .F26, .F27, .F28, .F29, .F30, .F31]

/-- The relocation-kind table as the specification states it: the kind each
opcode of the table requires, `none` for an opcode absent from the table. -/
def specRelocKind : Opcode → Option RelocKind
  | .BSR => some .reloc_bsr
  | .LDLr => some .reloc_gprellow
  | .LDQr => some .reloc_gprellow
  | .LDBUr => some .reloc_gprellow
  | .LDWUr => some .reloc_gprellow
  | .LDSr => some .reloc_gprellow
  | .LDTr => some .reloc_gprellow
  | .LDAr => some .reloc_gprellow
  | .STQr => some .reloc_gprellow
  | .STLr => some .reloc_gprellow
  | .STWr => some .reloc_gprellow
  | .STBr => some .reloc_gprellow
  | .STSr => some .reloc_gprellow
  | .STTr => some .reloc_gprellow
  | .LDAHr => some .reloc_gprelhigh
  | .LDQl => some .reloc_literal
  | .LDAg => some .reloc_gpdist
  | .LDAHg => some .reloc_gpdist
  | _ => none

/-- An opcode is in the relocation table when the specification gives it a kind. -/
def inRelocTable (op : Opcode) : Bool := (specRelocKind op).isSome

/-- The opcodes whose extra offset comes from operand 3 (`LDAg`, `LDAHg`). -/
def usesOffsetOperand : Opcode → Bool
  | .LDAg | .LDAHg => true
  | _ => false

/-- The payload of a symbolic operand, as a relocation target; `none` for a
register, an immediate and the unrecognised tags. -/
def payload : MachineOperand → Option RelocTarget
  | .GlobalAddress gv => some (.global gv)
  | .ExternalSymbol name => some (.symbol name)
  | .ConstantPoolIndex index => some (.constPool index)
  | .MachineBasicBlock mbb => some (.block mbb)
  | _ => none

/-- The pseudo-markers `emitBasicBlock` skips. -/
def isPseudoMarker : Opcode → Bool
  | .ALTENT | .PCLABEL | .MEMLABEL | .IMPLICIT_DEF => true
  | _ => false

/-- The instructions of a list that are not pseudo-markers, in order. -/
def nonPseudo (instrs : List MachineInstr) : List MachineInstr :=
  instrs.filter (fun MI => !isPseudoMarker MI.opcode)

/-- The words passed to `emitWordLE` in a sequence of calls, in order. -/
def wordsOf : List SinkCall → List Nat
  | [] => []
  | .emitWordLE w :: cs => w :: wordsOf cs
  | _ :: cs => wordsOf cs

/-- The calls one encoded instruction makes: its relocation records, then its word. -/
def groupCalls (g : List MachineRelocation × Nat) : List SinkCall :=
  g.1.map SinkCall.addRelocation ++ [SinkCall.emitWordLE g.2]

/-- Every record of every group carries the PC offset the sink reports right
before the word of its group is emitted, the groups being replayed in order
from the sink state `s`. -/
def GroupsPlaced {σ : Type} (MCE : MachineCodeEmitter σ) :
    List (List MachineRelocation × Nat) → σ → Prop
  | [], _ => True
  | g :: gs, s =>
    (∀ r ∈ g.1, r.offset = MCE.getCurrentPCOffset (replay MCE (g.1.map SinkCall.addRelocation) s))
      ∧ GroupsPlaced MCE gs (replay MCE (groupCalls g) s)

/-- The groups `gs` are the calls of the instructions `instrs`, one group per
instruction: started in the sink state reached so far, the encoder call of the
instruction returns the word of its group after adding exactly the records of
its group, and the next instruction starts after that word has been emitted. -/
def EncodedGroups {σ : Type} (encode : Opcode → List Nat → Nat) (MCE : MachineCodeEmitter σ) :
    List MachineInstr → List (List MachineRelocation × Nat) → σ → Prop
  | [], [], _ => True
  | MI :: rest, g :: gs, s =>
    getBinaryCodeForInstr encode (traced MCE) MI (s, [])
        = .ok (g.2, (replay MCE (g.1.map SinkCall.addRelocation) s,
                      g.1.map SinkCall.addRelocation))
      ∧ EncodedGroups encode MCE rest gs (replay MCE (groupCalls g) s)
  | _, _, _ => False

/-- The word the encoder returns for an instruction, read off on the sink
without state: `w` is the word of `MI`. -/
def IsWordOf (encode : Opcode → List Nat → Nat) (MI : MachineInstr) (w : Nat) : Prop :=
  getBinaryCodeForInstr encode unitSink MI () = .ok (w, ())

/-- All instructions of a function, block after block. -/
def allInstrs (MF : MachineFunction) : List MachineInstr :=
  MF.blocks.flatMap (fun MBB => MBB.instrs)

/-! ## Sample inputs -/

/-- A sample word encoder: the field values packed five bits apiece. -/
def sampleEncode : Opcode → List Nat → Nat :=
  fun _ vs => vs.foldl (fun acc v => 32 * acc + v) 1

/-- A sample block: a `LDAHg` on a data global with offset operand 8, a
`PCLABEL` marker, a `BSR` to a function and a branch to block 2. -/
def sampleBlock : MachineBasicBlock :=
  ⟨0, [⟨.LDAHg, [.Register .R29, .GlobalAddress ⟨1, false⟩, .Register .R27, .Immediate 8]⟩,
       ⟨.PCLABEL, [.Immediate 1]⟩,
       ⟨.BSR, [.Register .R26, .GlobalAddress ⟨2, true⟩]⟩,
       ⟨.other 1, [.Register .R31, .MachineBasicBlock 2]⟩]⟩

/-- A sample function: the sample block, an empty block and a one-instruction block. -/
def sampleFunction : MachineFunction :=
  ⟨[sampleBlock, ⟨1, []⟩, ⟨2, [⟨.other 2, [.Register .F1, .Immediate 5]⟩]⟩]⟩

/-- The calls `emitBasicBlock` makes for the sample block, from PC offset 0. -/
def sampleBlockCalls : List SinkCall :=
  [.StartMachineBasicBlock sampleBlock,
   .addRelocation (.getGV 0 .reloc_gpdist ⟨1, false⟩ 8 false false),
   .emitWordLE 1999720,
   .addRelocation (.getGV 4 .reloc_bsr ⟨2, true⟩ 0 true false),
   .emitWordLE 1856,
   .addRelocation (.getBB 8 .reloc_bsr 2),
   .emitWordLE 2016]

/-- The buffer after the sample block has been emitted into an empty buffer. -/
def sampleBlockBuffer : Buffer :=
  { words := [1999720, 1856, 2016],
    relocs := [.getGV 0 .reloc_gpdist ⟨1, false⟩ 8 false false,
               .getGV 4 .reloc_bsr ⟨2, true⟩ 0 true false,
               .getBB 8 .reloc_bsr 2],
    pc := 12, labels := [(0, 0)], retries := 0 }

/-- The calls one pass over the sample function makes. -/
def sampleFunctionCalls : List SinkCall :=
  .startFunction sampleFunction :: sampleBlockCalls ++
    [.StartMachineBasicBlock ⟨1, []⟩,
     .StartMachineBasicBlock ⟨2, [⟨.other 2, [.Register .F1, .Immediate 5]⟩]⟩,
     .emitWordLE 1061]

/-- The buffer after one pass over the sample function. -/
def sampleFunctionBuffer : Buffer :=
  { words := [1999720, 1856, 2016, 1061],
    relocs := [.getGV 0 .reloc_gpdist ⟨1, false⟩ 8 false false,
               .getGV 4 .reloc_bsr ⟨2, true⟩ 0 true false,
               .getBB 8 .reloc_bsr 2],
    pc := 16, labels := [(0, 0), (1, 12), (2, 12)], retries := 0 }

/-- The call `getMachineOpValue` together with the sink as the call leaves it
in either outcome: the value returned or the abort, and the sink state reached
at that point (`getMachineOpValue` keeps the sink of a returning call only). -/
def getMachineOpValueWithSink {σ : Type} (MCE : MachineCodeEmitter σ) (MI : MachineInstr)
    (MO : MachineOperand) (s : σ) : Except Abort Nat × σ :=
  if MO.isReg then
    match MO with
    | .Register r => (getAlphaRegNumber r, s)
    | _ => (.error .assertion, s)
  else if MO.isImm then
    match MO with
    | .Immediate v => (.ok (toUnsigned v), s)
    | _ => (.error .assertion, s)
  else if MO.isGlobal || MO.isSymbol || MO.isCPI then
    match relocSwitch MI with
    | .error e => (.error e, s)
    | .ok (Reloc, Offset, useGOT) =>
      match MO with
      | .GlobalAddress gv =>
        (.ok 0, MCE.addRelocation
          (.getGV (MCE.getCurrentPCOffset s) Reloc gv Offset gv.isFunction useGOT) s)
      | .ExternalSymbol name =>
        (.ok 0, MCE.addRelocation
          (.getExtSym (MCE.getCurrentPCOffset s) Reloc name Offset true) s)
      | .ConstantPoolIndex index =>
        (.ok 0, MCE.addRelocation
          (.getConstPool (MCE.getCurrentPCOffset s) Reloc index Offset) s)
      | _ => (.error .assertion, s)
  else if MO.isMBB then
    match MO with
    | .MachineBasicBlock mbb =>
      (.ok 0, MCE.addRelocation (.getBB (MCE.getCurrentPCOffset s) .reloc_bsr mbb) s)
    | _ => (.error .assertion, s)
  else
    (.error .unknownMachineOperand, s)

/-- The outcome of a call that is followed with its sink, as `getMachineOpValue`
gives it: the sink is dropped on an abort. -/
def dropSinkOnAbort {σ : Type} : Except Abort Nat × σ → Except Abort (Nat × σ)
  | (.ok v, s) => .ok (v, s)
  | (.error e, _) => .error e

/-! ## The retry loop -/

/-- One turn of the `do ... while` loop of `runOnMachineFunction`: the body,
then `finishFunction`, whose answer decides whether another turn follows. -/
def loopTurn {σ : Type} (encode : Opcode → List Nat → Nat) (MCE : MachineCodeEmitter σ)
    (MF : MachineFunction) (s : σ) : Except Abort (Bool × σ) :=
  match emitFunctionBody encode MCE MF s with
  | .error e => .error e
  | .ok s1 => .ok (MCE.finishFunction MF s1)

/-- Started in state `s`, the sink answers `true` to the first `k` calls of
`finishFunction` and `false` to call `k + 1`, no turn aborting. -/
def RetriesExactly {σ : Type} (encode : Opcode → List Nat → Nat) (MCE : MachineCodeEmitter σ)
    (MF : MachineFunction) : Nat → σ → Prop
  | 0, s => ∃ s1, loopTurn encode MCE MF s = .ok (false, s1)
  | k + 1, s =>
    ∃ s1, loopTurn encode MCE MF s = .ok (true, s1) ∧ RetriesExactly encode MCE MF k s1

/-- The calls of the block loop: for each block in order, its notification
followed by the groups of its instructions (`gss` holds the groups block by
block). -/
def blockCalls : List MachineBasicBlock → List (List (List MachineRelocation × Nat)) →
    List SinkCall
  | MBB :: bs, gs :: gss =>
    SinkCall.StartMachineBasicBlock MBB :: (gs.flatMap groupCalls ++ blockCalls bs gss)
  | _, _ => []

/-- The calls of one emission attempt: `startFunction`, the blocks, `finishFunction`. -/
def attemptCalls (MF : MachineFunction) (gss : List (List (List MachineRelocation × Nat))) :
    List SinkCall :=
  SinkCall.startFunction MF :: (blockCalls MF.blocks gss ++ [SinkCall.finishFunction MF])

/-- A buffer sink that asks for a retry every time. -/
def alwaysRetrySink : MachineCodeEmitter Buffer :=
  { bufferSink with finishFunction := fun _ b => (true, b) }

/-- A function of one block holding one `BSR`. -/
def callFunction : MachineFunction :=
  ⟨[⟨0, [⟨.BSR, [.Register .R26, .GlobalAddress ⟨2, true⟩]⟩]⟩]⟩

/-! ## Comparing two runs -/

/-- Two outcomes agree up to `Q`: both abort, in the same way, or both return,
with results related by `Q`. -/
def Agree {α β : Type} (Q : α → β → Prop) : Except Abort α → Except Abort β → Prop
  | .ok a, .ok b => Q a b
  | .error e1, .error e2 => e1 = e2
  | _, _ => False

/-- The sink `M1` in state `a` and the sink `M2` in state `b` report the same PC
offsets: after any sequence of calls made on both, the two PC offsets are equal. -/
def SamePC {σ τ : Type} (M1 : MachineCodeEmitter σ) (M2 : MachineCodeEmitter τ)
    (a : σ) (b : τ) : Prop :=
  ∀ calls : List SinkCall,
    M1.getCurrentPCOffset (replay M1 calls a) = M2.getCurrentPCOffset (replay M2 calls b)

/-- Two buffers hold the same output: the same words, the same relocation
records, the same PC and the same block addresses. -/
def sameOutput (a b : Buffer) : Prop :=
  a.words = b.words ∧ a.relocs = b.relocs ∧ a.pc = b.pc ∧ a.labels = b.labels

/-! ## Theorems -/

/-! ### The register indexer -/

theorem getAlphaRegNumber_lt (r : Reg) (n : Nat) (h : getAlphaRegNumber r = .ok n) : n < 32 := by
  cases r <;> simp [getAlphaRegNumber] at h <;> omega

/-- C10: for every `i` in `0..31`, `getAlphaRegNumber R_i = getAlphaRegNumber F_i = i`;
every index the function returns lies in `[0, 31]`; and on each bank the index
map is one-to-one and onto `[0, 31]`. -/
theorem getAlphaRegNumber_banks :
    (∀ i : Fin 32, getAlphaRegNumber (bankR.getD i (.other 0)) = .ok i.val
        ∧ getAlphaRegNumber (bankF.getD i (.other 0)) = .ok i.val)
    ∧ (∀ r n, getAlphaRegNumber r = .ok n → n < 32)
    ∧ (∀ i j : Fin 32, getAlphaRegNumber (bankR.getD i (.other 0))
          = getAlphaRegNumber (bankR.getD j (.other 0)) → i = j)
    ∧ (∀ i j : Fin 32, getAlphaRegNumber (bankF.getD i (.other 0))
          = getAlphaRegNumber (bankF.getD j (.other 0)) → i = j)
    ∧ (∀ n, n < 32 → (∃ r ∈ bankR, getAlphaRegNumber r = .ok n)
          ∧ (∃ r ∈ bankF, getAlphaRegNumber r = .ok n))
    ∧ bankR.length = 32 ∧ bankF.length = 32 := by
  have key : ∀ i : Fin 32, getAlphaRegNumber (bankR.getD i (.other 0)) = .ok i.val
        ∧ getAlphaRegNumber (bankF.getD i (.other 0)) = .ok i.val := by
    intro i
    fin_cases i <;> exact ⟨rfl, rfl⟩
  refine ⟨key, getAlphaRegNumber_lt, ?_, ?_, ?_, rfl, rfl⟩
  · intro i j h
    rw [(key i).1, (key j).1] at h
    exact Fin.ext (by injection h)
  · intro i j h
    rw [(key i).2, (key j).2] at h
    exact Fin.ext (by injection h)
  · intro n hn
    have hk := key ⟨n, hn⟩
    refine ⟨⟨bankR.getD n (.other 0), ?_, hk.1⟩, ⟨bankF.getD n (.other 0), ?_, hk.2⟩⟩
    · interval_cases n <;> simp [bankR]
    · interval_cases n <;> simp [bankF]

/-! ### The opcode switch -/

theorem getOperand3Imm_eq_ok (MI : MachineInstr) (c : Int) :
    getOperand3Imm MI = .ok c ↔ MI.operands[3]? = some (.Immediate c) := by
  unfold getOperand3Imm
  split
  · rename_i c1 h1
    rw [h1]
    constructor
    · intro h
      injection h with h
      rw [h]
    · intro h
      injection h with h
      injection h with h
      rw [h]
  · rename_i h1
    constructor
    · intro h
      cases h
    · intro h
      exact absurd h (h1 c)

theorem relocSwitch_of_ok (MI : MachineInstr) (k : RelocKind) (off : Int) (got : Bool)
    (h : relocSwitch MI = .ok (k, off, got)) :
    specRelocKind MI.opcode = some k ∧ (got = true ↔ MI.opcode = .LDQl)
      ∧ (usesOffsetOperand MI.opcode = false → off = 0)
      ∧ (usesOffsetOperand MI.opcode = true →
          ∃ c, MI.operands[3]? = some (.Immediate c) ∧ off = toInt32 c) := by
  obtain ⟨op, ops⟩ := MI
  cases op <;> simp [relocSwitch, specRelocKind, usesOffsetOperand] at h ⊢ <;>
    first
    | (obtain ⟨rfl, rfl, rfl⟩ := h; simp)
    | (split at h <;> simp at h
       rename_i c hc
       obtain ⟨rfl, rfl, rfl⟩ := h
       exact ⟨rfl, rfl, c, (getOperand3Imm_eq_ok _ _).1 hc, rfl⟩)

theorem relocSwitch_not_in_table (MI : MachineInstr) (h : specRelocKind MI.opcode = none) :
    relocSwitch MI = .error .unknownRelocatableInstruction := by
  obtain ⟨op, ops⟩ := MI
  cases op <;> simp [relocSwitch, specRelocKind] at h ⊢

theorem relocSwitch_in_table (MI : MachineInstr) (k : RelocKind)
    (h : specRelocKind MI.opcode = some k)
    (h3 : usesOffsetOperand MI.opcode = true → ∃ c, MI.operands[3]? = some (.Immediate c)) :
    ∃ off got, relocSwitch MI = .ok (k, off, got) := by
  obtain ⟨op, ops⟩ := MI
  cases op <;> simp [relocSwitch, specRelocKind, usesOffsetOperand] at h h3 ⊢ <;>
    first
    | exact h
    | (obtain ⟨c, hc⟩ := h3
       rw [(getOperand3Imm_eq_ok _ c).2 hc]
       simp [h])

/-! ### The operand resolver, branch by branch -/

theorem getMachineOpValue_reg {σ : Type} (MCE : MachineCodeEmitter σ) (MI : MachineInstr)
    (r : Reg) (s : σ) :
    getMachineOpValue MCE MI (.Register r) s =
      match getAlphaRegNumber r with
      | .ok n => .ok (n, s)
      | .error e => .error e := rfl

theorem getMachineOpValue_imm {σ : Type} (MCE : MachineCodeEmitter σ) (MI : MachineInstr)
    (v : Int) (s : σ) :
    getMachineOpValue MCE MI (.Immediate v) s = .ok (toUnsigned v, s) := rfl

theorem getMachineOpValue_global {σ : Type} (MCE : MachineCodeEmitter σ) (MI : MachineInstr)
    (gv : GlobalValue) (s : σ) :
    getMachineOpValue MCE MI (.GlobalAddress gv) s =
      match relocSwitch MI with
      | .error e => .error e
      | .ok (k, off, got) =>
        .ok (0, MCE.addRelocation
          (.getGV (MCE.getCurrentPCOffset s) k gv off gv.isFunction got) s) := rfl

theorem getMachineOpValue_symbol {σ : Type} (MCE : MachineCodeEmitter σ) (MI : MachineInstr)
    (name : String) (s : σ) :
    getMachineOpValue MCE MI (.ExternalSymbol name) s =
      match relocSwitch MI with
      | .error e => .error e
      | .ok (k, off, _) =>
        .ok (0, MCE.addRelocation
          (.getExtSym (MCE.getCurrentPCOffset s) k name off true) s) := rfl

theorem getMachineOpValue_cpi {σ : Type} (MCE : MachineCodeEmitter σ) (MI : MachineInstr)
    (index : Nat) (s : σ) :
    getMachineOpValue MCE MI (.ConstantPoolIndex index) s =
      match relocSwitch MI with
      | .error e => .error e
      | .ok (k, off, _) =>
        .ok (0, MCE.addRelocation
          (.getConstPool (MCE.getCurrentPCOffset s) k index off) s) := rfl

theorem getMachineOpValue_mbb {σ : Type} (MCE : MachineCodeEmitter σ) (MI : MachineInstr)
    (mbb : Nat) (s : σ) :
    getMachineOpValue MCE MI (.MachineBasicBlock mbb) s =
      .ok (0, MCE.addRelocation (.getBB (MCE.getCurrentPCOffset s) .reloc_bsr mbb) s) := rfl

theorem getMachineOpValue_frameIndex {σ : Type} (MCE : MachineCodeEmitter σ) (MI : MachineInstr)
    (index : Int) (s : σ) :
    getMachineOpValue MCE MI (.FrameIndex index) s = .error .unknownMachineOperand := rfl

theorem getMachineOpValue_jumpTable {σ : Type} (MCE : MachineCodeEmitter σ) (MI : MachineInstr)
    (index : Nat) (s : σ) :
    getMachineOpValue MCE MI (.JumpTableIndex index) s = .error .unknownMachineOperand := rfl

/-- A successful resolution of a global, external-symbol or constant-pool
operand, seen on the traced sink: the switch succeeded and exactly one record,
built from its results, was added. -/
theorem getMachineOpValue_relocated_ok {σ : Type} (MCE : MachineCodeEmitter σ)
    (MI : MachineInstr) (MO : MachineOperand) (s : σ) (log : List SinkCall)
    (v : Nat) (t : σ × List SinkCall)
    (hMO : (MO.isGlobal || MO.isSymbol || MO.isCPI) = true)
    (h : getMachineOpValue (traced MCE) MI MO (s, log) = .ok (v, t)) :
    ∃ k off got r, relocSwitch MI = .ok (k, off, got) ∧ v = 0
      ∧ t = (MCE.addRelocation r s, log ++ [.addRelocation r])
      ∧ r.offset = MCE.getCurrentPCOffset s ∧ r.kind = k ∧ r.extraOffset = off
      ∧ some r.target = payload MO
      ∧ (∀ gv, MO = .GlobalAddress gv →
          r = .getGV (MCE.getCurrentPCOffset s) k gv off gv.isFunction got)
      ∧ (∀ name, MO = .ExternalSymbol name →
          r = .getExtSym (MCE.getCurrentPCOffset s) k name off true)
      ∧ (∀ index, MO = .ConstantPoolIndex index →
          r = .getConstPool (MCE.getCurrentPCOffset s) k index off) := by
  cases MO <;> simp [MachineOperand.isGlobal, MachineOperand.isSymbol, MachineOperand.isCPI] at hMO
  · rw [getMachineOpValue_global] at h
    cases hsw : relocSwitch MI with
    | error e => rw [hsw] at h; cases h
    | ok x =>
      obtain ⟨k, off, got⟩ := x
      rw [hsw] at h
      injection h with h
      injection h with h1 h2
      refine ⟨k, off, got, _, rfl, h1.symm, h2.symm, rfl, rfl, rfl, rfl, ?_, ?_, ?_⟩
      · intro gv hgv
        injection hgv with hgv
        rw [hgv]
        rfl
      · intro _ hc
        cases hc
      · intro _ hc
        cases hc
  · rw [getMachineOpValue_symbol] at h
    cases hsw : relocSwitch MI with
    | error e => rw [hsw] at h; cases h
    | ok x =>
      obtain ⟨k, off, got⟩ := x
      rw [hsw] at h
      injection h with h
      injection h with h1 h2
      refine ⟨k, off, got, _, rfl, h1.symm, h2.symm, rfl, rfl, rfl, rfl, ?_, ?_, ?_⟩
      · intro _ hc
        cases hc
      · intro nm hnm
        injection hnm with hnm
        rw [hnm]
        rfl
      · intro _ hc
        cases hc
  · rw [getMachineOpValue_cpi] at h
    cases hsw : relocSwitch MI with
    | error e => rw [hsw] at h; cases h
    | ok x =>
      obtain ⟨k, off, got⟩ := x
      rw [hsw] at h
      injection h with h
      injection h with h1 h2
      refine ⟨k, off, got, _, rfl, h1.symm, h2.symm, rfl, rfl, rfl, rfl, ?_, ?_, ?_⟩
      · intro _ hc
        cases hc
      · intro _ hc
        cases hc
      · intro ix hix
        injection hix with hix
        rw [hix]
        rfl

/-- A global, external-symbol or constant-pool operand resolves as soon as the
opcode switch succeeds. -/
theorem getMachineOpValue_relocated_succeeds {σ : Type} (MCE : MachineCodeEmitter σ)
    (MI : MachineInstr) (MO : MachineOperand) (s : σ) (k : RelocKind) (off : Int) (got : Bool)
    (hMO : (MO.isGlobal || MO.isSymbol || MO.isCPI) = true)
    (hsw : relocSwitch MI = .ok (k, off, got)) :
    ∃ t, getMachineOpValue MCE MI MO s = .ok (0, t) := by
  cases MO <;> simp [MachineOperand.isGlobal, MachineOperand.isSymbol, MachineOperand.isCPI] at hMO
  · rw [getMachineOpValue_global, hsw]
    exact ⟨_, rfl⟩
  · rw [getMachineOpValue_symbol, hsw]
    exact ⟨_, rfl⟩
  · rw [getMachineOpValue_cpi, hsw]
    exact ⟨_, rfl⟩

/-! ### Relocation records of the operand resolver -/

/-- C1: for a global, external-symbol or constant-pool operand, the kind of the
record `getMachineOpValue` adds is the kind the table gives the instruction's
opcode, whatever the operand, the PC offset and the sink: every successful call
adds exactly one record, of that kind, and the call succeeds as soon as the
offset operand (operand 3, for `LDAg` and `LDAHg` only) is an immediate. -/
theorem reloc_kind_is_function_of_opcode {σ : Type} (MCE : MachineCodeEmitter σ)
    (MI : MachineInstr) (MO : MachineOperand) (s : σ) (log : List SinkCall) (k : RelocKind)
    (hMO : (MO.isGlobal || MO.isSymbol || MO.isCPI) = true)
    (hk : specRelocKind MI.opcode = some k) :
    (∀ v t, getMachineOpValue (traced MCE) MI MO (s, log) = .ok (v, t) →
        ∃ r, t = (MCE.addRelocation r s, log ++ [.addRelocation r]) ∧ r.kind = k)
    ∧ ((usesOffsetOperand MI.opcode = true → ∃ c, MI.operands[3]? = some (.Immediate c)) →
        ∃ r, getMachineOpValue (traced MCE) MI MO (s, log)
              = .ok (0, (MCE.addRelocation r s, log ++ [.addRelocation r])) ∧ r.kind = k) := by
  have part1 : ∀ v t, getMachineOpValue (traced MCE) MI MO (s, log) = .ok (v, t) →
      ∃ r, t = (MCE.addRelocation r s, log ++ [.addRelocation r]) ∧ r.kind = k := by
    intro v t h
    obtain ⟨k1, off, got, r, hsw, _, ht, _, hkind, _⟩ :=
      getMachineOpValue_relocated_ok MCE MI MO s log v t hMO h
    have hk1 := (relocSwitch_of_ok MI k1 off got hsw).1
    rw [hk] at hk1
    injection hk1 with hk1
    exact ⟨r, ht, by rw [hkind, hk1]⟩
  refine ⟨part1, ?_⟩
  intro h3
  obtain ⟨off, got, hsw⟩ := relocSwitch_in_table MI k hk h3
  obtain ⟨t, ht⟩ := getMachineOpValue_relocated_succeeds (traced MCE) MI MO (s, log) k off got hMO hsw
  obtain ⟨r, hr, hkind⟩ := part1 0 t ht
  exact ⟨r, by rw [ht, hr], hkind⟩

/-- C1, at a concrete input: the low-half load `LDQr` with the constant-pool
operand 3 adds one record, of kind `reloc_gprellow`. -/
theorem reloc_kind_ldqr_constant_pool :
    ∃ r, getMachineOpValue (traced bufferSink)
          ⟨.LDQr, [.Register .R1, .ConstantPoolIndex 3, .Register .R29]⟩ (.ConstantPoolIndex 3)
          (⟨[], [], 64, [], 0⟩, [])
        = .ok (0, (bufferSink.addRelocation r ⟨[], [], 64, [], 0⟩, [] ++ [.addRelocation r]))
      ∧ r.kind = .reloc_gprellow :=
  (reloc_kind_is_function_of_opcode bufferSink
    ⟨.LDQr, [.Register .R1, .ConstantPoolIndex 3, .Register .R29]⟩ (.ConstantPoolIndex 3)
    ⟨[], [], 64, [], 0⟩ [] .reloc_gprellow rfl rfl).2 (fun h => absurd h (by decide))

/-- C2: resolving the operand `GlobalReference(F)`, `F` a function, of a `BSR`
instruction while the sink reports PC offset `p` adds exactly one record,
`getGV p reloc_bsr F 0 true false` (offset `p`, kind `reloc_bsr`, target `F`,
extra offset 0, callable, not indirect), and returns the field value 0. -/
theorem bsr_global_function_record {σ : Type} (MCE : MachineCodeEmitter σ)
    (ops : List MachineOperand) (F : GlobalValue) (p : Int) (s : σ) (log : List SinkCall)
    (hF : F.isFunction = true) (hp : MCE.getCurrentPCOffset s = p) :
    getMachineOpValue (traced MCE) ⟨.BSR, ops⟩ (.GlobalAddress F) (s, log)
        = .ok (0, (MCE.addRelocation (.getGV p .reloc_bsr F 0 true false) s,
                    log ++ [.addRelocation (.getGV p .reloc_bsr F 0 true false)]))
      ∧ (MachineRelocation.getGV p .reloc_bsr F 0 true false).offset = p
      ∧ (MachineRelocation.getGV p .reloc_bsr F 0 true false).kind = .reloc_bsr
      ∧ (MachineRelocation.getGV p .reloc_bsr F 0 true false).target = .global F
      ∧ (MachineRelocation.getGV p .reloc_bsr F 0 true false).extraOffset = 0 := by
  refine ⟨?_, rfl, rfl, rfl, rfl⟩
  obtain ⟨id, isF⟩ := F
  subst hp
  subst hF
  rfl

/-- C2, at PC offset `0x40`: the call `BSR F` against a buffer sink standing at
offset 64 leaves the one record `getGV 64 reloc_bsr F 0 true false`. -/
theorem bsr_global_function_record_at_0x40 :
    getMachineOpValue (traced bufferSink) ⟨.BSR, [.Register .R26, .GlobalAddress ⟨1, true⟩]⟩
        (.GlobalAddress ⟨1, true⟩) (⟨[], [], 64, [], 0⟩, [])
      = .ok (0, (⟨[], [.getGV 64 .reloc_bsr ⟨1, true⟩ 0 true false], 64, [], 0⟩,
                  [.addRelocation (.getGV 64 .reloc_bsr ⟨1, true⟩ 0 true false)])) :=
  (bsr_global_function_record bufferSink [.Register .R26, .GlobalAddress ⟨1, true⟩] ⟨1, true⟩ 64
    ⟨[], [], 64, [], 0⟩ [] rfl rfl).1

/-- C3: for an opcode of the relocation table and a global operand `G`, the
record is a `getGV` record for `G` whose GOT flag is set exactly when the
opcode is `LDQl`, and for `LDQl` its kind is `reloc_literal`; the call succeeds
as soon as the offset operand (for `LDAg` and `LDAHg` only) is an immediate. -/
theorem global_got_flag_iff_ldql {σ : Type} (MCE : MachineCodeEmitter σ)
    (MI : MachineInstr) (G : GlobalValue) (s : σ) (log : List SinkCall)
    (hT : inRelocTable MI.opcode = true) :
    (∀ v t, getMachineOpValue (traced MCE) MI (.GlobalAddress G) (s, log) = .ok (v, t) →
        ∃ k off got,
          t = (MCE.addRelocation
                (.getGV (MCE.getCurrentPCOffset s) k G off G.isFunction got) s,
               log ++ [.addRelocation
                (.getGV (MCE.getCurrentPCOffset s) k G off G.isFunction got)])
          ∧ (got = true ↔ MI.opcode = .LDQl) ∧ (MI.opcode = .LDQl → k = .reloc_literal))
    ∧ ((usesOffsetOperand MI.opcode = true → ∃ c, MI.operands[3]? = some (.Immediate c)) →
        ∃ t, getMachineOpValue (traced MCE) MI (.GlobalAddress G) (s, log) = .ok (0, t)) := by
  constructor
  · intro v t h
    obtain ⟨k, off, got, r, hsw, _, ht, _, _, _, _, hgv, _⟩ :=
      getMachineOpValue_relocated_ok MCE MI (.GlobalAddress G) s log v t rfl h
    have hr := hgv G rfl
    obtain ⟨hk, hgot, _⟩ := relocSwitch_of_ok MI k off got hsw
    refine ⟨k, off, got, by rw [ht, hr], hgot, ?_⟩
    intro hop
    rw [hop] at hk
    injection hk with hk
    exact hk.symm
  · intro h3
    cases hk : specRelocKind MI.opcode with
    | none => simp [inRelocTable, hk] at hT
    | some k =>
      obtain ⟨off, got, hsw⟩ := relocSwitch_in_table MI k hk h3
      exact getMachineOpValue_relocated_succeeds (traced MCE) MI (.GlobalAddress G) (s, log)
        k off got rfl hsw

/-- C3, at a concrete input: `LDQl` with a global operand sets the GOT flag. -/
theorem global_got_flag_ldql :
    ∃ t, getMachineOpValue (traced bufferSink)
          ⟨.LDQl, [.Register .R1, .GlobalAddress ⟨2, false⟩, .Register .R29]⟩
          (.GlobalAddress ⟨2, false⟩) (⟨[], [], 8, [], 0⟩, []) = .ok (0, t) :=
  (global_got_flag_iff_ldql bufferSink
    ⟨.LDQl, [.Register .R1, .GlobalAddress ⟨2, false⟩, .Register .R29]⟩ ⟨2, false⟩
    ⟨[], [], 8, [], 0⟩ [] rfl).2 (fun h => absurd h (by decide))

theorem toInt32_of_range (c : Int) (h1 : -2 ^ 31 ≤ c) (h2 : c < 2 ^ 31) : toInt32 c = c := by
  unfold toInt32
  omega

/-- C4, as stated, fails: the extra offset is held in an `int`.  For `LDAg` with
the immediate `2^31` at operand 3 the record carries `-2^31`, not `2^31`. -/
theorem extra_offset_is_truncated :
    (⟨.LDAg, [.Register .R1, .GlobalAddress ⟨2, false⟩, .Register .R29,
        .Immediate 2147483648]⟩ : MachineInstr).operands[3]? = some (.Immediate 2147483648)
    ∧ getMachineOpValue (traced bufferSink)
        ⟨.LDAg, [.Register .R1, .GlobalAddress ⟨2, false⟩, .Register .R29,
          .Immediate 2147483648]⟩
        (.GlobalAddress ⟨2, false⟩) (⟨[], [], 0, [], 0⟩, [])
      = .ok (0, (⟨[], [.getGV 0 .reloc_gpdist ⟨2, false⟩ (-2147483648) false false], 0, [], 0⟩,
                  [.addRelocation (.getGV 0 .reloc_gpdist ⟨2, false⟩ (-2147483648) false false)]))
    ∧ (MachineRelocation.getGV 0 .reloc_gpdist ⟨2, false⟩ (-2147483648) false false).extraOffset
        ≠ 2147483648 :=
  ⟨rfl, rfl, by decide⟩

/-- C4, amended: for a global, external-symbol or constant-pool operand of an
instruction whose opcode is in the relocation table, if the opcode is `LDAg` or
`LDAHg` and operand 3 is an immediate `c`, the record's extra offset is `c`
converted to `int` (so it is `c` itself when `-2^31 ≤ c < 2^31`), whichever
operand is resolved; for every other opcode of the table it is 0. -/
theorem extra_offset_source {σ : Type} (MCE : MachineCodeEmitter σ)
    (MI : MachineInstr) (MO : MachineOperand) (s : σ) (log : List SinkCall)
    (hMO : (MO.isGlobal || MO.isSymbol || MO.isCPI) = true)
    (hT : inRelocTable MI.opcode = true) :
    (usesOffsetOperand MI.opcode = true → ∀ c, MI.operands[3]? = some (.Immediate c) →
        ∃ r, getMachineOpValue (traced MCE) MI MO (s, log)
              = .ok (0, (MCE.addRelocation r s, log ++ [.addRelocation r]))
          ∧ r.extraOffset = toInt32 c
          ∧ (-2 ^ 31 ≤ c → c < 2 ^ 31 → r.extraOffset = c))
    ∧ (usesOffsetOperand MI.opcode = false →
        ∃ r, getMachineOpValue (traced MCE) MI MO (s, log)
              = .ok (0, (MCE.addRelocation r s, log ++ [.addRelocation r]))
          ∧ r.extraOffset = 0) := by
  cases hk : specRelocKind MI.opcode with
  | none => simp [inRelocTable, hk] at hT
  | some k =>
    have main : (usesOffsetOperand MI.opcode = true → ∃ c, MI.operands[3]? = some (.Immediate c)) →
        ∃ r off got, relocSwitch MI = .ok (k, off, got)
          ∧ getMachineOpValue (traced MCE) MI MO (s, log)
              = .ok (0, (MCE.addRelocation r s, log ++ [.addRelocation r]))
          ∧ r.extraOffset = off := by
      intro h3
      obtain ⟨off, got, hsw⟩ := relocSwitch_in_table MI k hk h3
      obtain ⟨t, ht⟩ :=
        getMachineOpValue_relocated_succeeds (traced MCE) MI MO (s, log) k off got hMO hsw
      obtain ⟨k1, off1, got1, r, hsw1, _, hr, _, _, hoff, _⟩ :=
        getMachineOpValue_relocated_ok MCE MI MO s log 0 t hMO ht
      rw [hsw] at hsw1
      injection hsw1 with hsw1
      injection hsw1 with _ hsw1
      injection hsw1 with hsw1 _
      exact ⟨r, off, got, hsw, by rw [ht, hr], by rw [hoff, hsw1]⟩
    constructor
    · intro hu c hc
      obtain ⟨r, off, got, hsw, hrun, hoff⟩ := main (fun _ => ⟨c, hc⟩)
      obtain ⟨c1, hc1, hoff1⟩ := (relocSwitch_of_ok MI k off got hsw).2.2.2 hu
      rw [hc] at hc1
      injection hc1 with hc1
      injection hc1 with hc1
      have hval : r.extraOffset = toInt32 c := by rw [hoff, hoff1, hc1]
      refine ⟨r, hrun, hval, ?_⟩
      intro h1 h2
      rw [hval]
      exact toInt32_of_range c h1 h2
    · intro hu
      obtain ⟨r, off, got, hsw, hrun, hoff⟩ := main (fun h => by rw [hu] at h; cases h)
      have h0 := (relocSwitch_of_ok MI k off got hsw).2.2.1 hu
      exact ⟨r, hrun, by rw [hoff, h0]⟩

/-- C4, amended, at a concrete input: `LDAHg` with the immediate 16 at operand 3
and an external-symbol operand. -/
theorem extra_offset_source_ldahg :
    ∃ r, getMachineOpValue (traced bufferSink)
          ⟨.LDAHg, [.Register .R29, .ExternalSymbol "gp", .Register .R27, .Immediate 16]⟩
          (.ExternalSymbol "gp") (⟨[], [], 4, [], 0⟩, [])
        = .ok (0, (bufferSink.addRelocation r ⟨[], [], 4, [], 0⟩, [] ++ [.addRelocation r]))
      ∧ r.extraOffset = toInt32 16
      ∧ (-2 ^ 31 ≤ (16 : Int) → (16 : Int) < 2 ^ 31 → r.extraOffset = 16) :=
  (extra_offset_source bufferSink
    ⟨.LDAHg, [.Register .R29, .ExternalSymbol "gp", .Register .R27, .Immediate 16]⟩
    (.ExternalSymbol "gp") ⟨[], [], 4, [], 0⟩ [] rfl rfl).1 rfl 16 rfl

/-- C5: a successful call of `getMachineOpValue` makes exactly one call on the
sink, an `addRelocation`, when the operand is a global, external-symbol,
constant-pool or block reference, and makes none when it is a register or an
immediate; the record added carries the PC offset the sink reports at the
call and the operand's own payload as target; earlier calls are untouched. -/
theorem one_record_per_symbolic_operand {σ : Type} (MCE : MachineCodeEmitter σ)
    (MI : MachineInstr) (MO : MachineOperand) (s : σ) (log : List SinkCall)
    (v : Nat) (t : σ × List SinkCall)
    (h : getMachineOpValue (traced MCE) MI MO (s, log) = .ok (v, t)) :
    ((payload MO).isSome = true →
        ∃ r, t = (MCE.addRelocation r s, log ++ [.addRelocation r])
          ∧ r.offset = MCE.getCurrentPCOffset s ∧ some r.target = payload MO)
    ∧ ((MO.isReg || MO.isImm) = true → t = (s, log)) := by
  cases MO with
  | Register r =>
    refine ⟨fun hp => by simp [payload] at hp, fun _ => ?_⟩
    rw [getMachineOpValue_reg] at h
    cases hr : getAlphaRegNumber r with
    | error e => rw [hr] at h; cases h
    | ok n =>
      rw [hr] at h
      injection h with h
      injection h with _ h2
      exact h2.symm
  | Immediate c =>
    refine ⟨fun hp => by simp [payload] at hp, fun _ => ?_⟩
    rw [getMachineOpValue_imm] at h
    injection h with h
    injection h with _ h2
    exact h2.symm
  | GlobalAddress gv =>
    refine ⟨fun _ => ?_, fun hp => by simp [MachineOperand.isReg, MachineOperand.isImm] at hp⟩
    obtain ⟨_, _, _, r, _, _, ht, hoff, _, _, htgt, _⟩ :=
      getMachineOpValue_relocated_ok MCE MI (.GlobalAddress gv) s log v t rfl h
    exact ⟨r, ht, hoff, htgt⟩
  | ExternalSymbol name =>
    refine ⟨fun _ => ?_, fun hp => by simp [MachineOperand.isReg, MachineOperand.isImm] at hp⟩
    obtain ⟨_, _, _, r, _, _, ht, hoff, _, _, htgt, _⟩ :=
      getMachineOpValue_relocated_ok MCE MI (.ExternalSymbol name) s log v t rfl h
    exact ⟨r, ht, hoff, htgt⟩
  | ConstantPoolIndex index =>
    refine ⟨fun _ => ?_, fun hp => by simp [MachineOperand.isReg, MachineOperand.isImm] at hp⟩
    obtain ⟨_, _, _, r, _, _, ht, hoff, _, _, htgt, _⟩ :=
      getMachineOpValue_relocated_ok MCE MI (.ConstantPoolIndex index) s log v t rfl h
    exact ⟨r, ht, hoff, htgt⟩
  | MachineBasicBlock mbb =>
    refine ⟨fun _ => ?_, fun hp => by simp [MachineOperand.isReg, MachineOperand.isImm] at hp⟩
    rw [getMachineOpValue_mbb] at h
    injection h with h
    injection h with _ h2
    exact ⟨_, h2.symm, rfl, rfl⟩
  | FrameIndex index =>
    rw [getMachineOpValue_frameIndex] at h
    cases h
  | JumpTableIndex index =>
    rw [getMachineOpValue_jumpTable] at h
    cases h

/-- C5, at a concrete input: against a buffer sink that already holds a
record, resolving a constant-pool operand of `LDQr` at PC offset 12 appends
one record and leaves the earlier one in place. -/
theorem one_record_per_symbolic_operand_buffer :
    ((payload (.ConstantPoolIndex 3)).isSome = true →
        ∃ r, ((⟨[7], [.getBB 0 .reloc_bsr 1, .getConstPool 12 .reloc_gprellow 3 0], 12, [], 0⟩ :
                Buffer),
              [SinkCall.emitWordLE 7,
                SinkCall.addRelocation (.getConstPool 12 .reloc_gprellow 3 0)])
            = (bufferSink.addRelocation r ⟨[7], [.getBB 0 .reloc_bsr 1], 12, [], 0⟩,
                [SinkCall.emitWordLE 7] ++ [.addRelocation r])
          ∧ r.offset = bufferSink.getCurrentPCOffset ⟨[7], [.getBB 0 .reloc_bsr 1], 12, [], 0⟩
          ∧ some r.target = payload (.ConstantPoolIndex 3))
    ∧ ((MachineOperand.isReg (.ConstantPoolIndex 3) || MachineOperand.isImm (.ConstantPoolIndex 3))
          = true →
        ((⟨[7], [.getBB 0 .reloc_bsr 1, .getConstPool 12 .reloc_gprellow 3 0], 12, [], 0⟩ :
                Buffer),
              [SinkCall.emitWordLE 7,
                SinkCall.addRelocation (.getConstPool 12 .reloc_gprellow 3 0)])
          = (⟨[7], [.getBB 0 .reloc_bsr 1], 12, [], 0⟩, [SinkCall.emitWordLE 7])) :=
  one_record_per_symbolic_operand bufferSink ⟨.LDQr, [.Register .R1, .ConstantPoolIndex 3]⟩
    (.ConstantPoolIndex 3) ⟨[7], [.getBB 0 .reloc_bsr 1], 12, [], 0⟩ [.emitWordLE 7] 0
    (⟨[7], [.getBB 0 .reloc_bsr 1, .getConstPool 12 .reloc_gprellow 3 0], 12, [], 0⟩,
      [.emitWordLE 7, .addRelocation (.getConstPool 12 .reloc_gprellow 3 0)]) rfl

/-- C8: for every instruction, whatever its opcode, resolving a block operand
`B` succeeds, returns 0 and makes exactly one call on the sink: it adds the
record `getBB pc reloc_bsr B`, whose kind is the kind the table gives `BSR`,
whose target is `B` and whose offset is the sink's current PC offset.  The
result does not depend on the opcode switch, which may well fail. -/
theorem block_reference_fixed_kind {σ : Type} (MCE : MachineCodeEmitter σ)
    (MI : MachineInstr) (B : Nat) (s : σ) (log : List SinkCall) :
    getMachineOpValue (traced MCE) MI (.MachineBasicBlock B) (s, log)
        = .ok (0, (MCE.addRelocation (.getBB (MCE.getCurrentPCOffset s) .reloc_bsr B) s,
                    log ++ [.addRelocation (.getBB (MCE.getCurrentPCOffset s) .reloc_bsr B)]))
      ∧ (MachineRelocation.getBB (MCE.getCurrentPCOffset s) .reloc_bsr B).kind = .reloc_bsr
      ∧ specRelocKind .BSR = some .reloc_bsr
      ∧ (MachineRelocation.getBB (MCE.getCurrentPCOffset s) .reloc_bsr B).target = .block B
      ∧ (MachineRelocation.getBB (MCE.getCurrentPCOffset s) .reloc_bsr B).offset
          = MCE.getCurrentPCOffset s :=
  ⟨rfl, rfl, rfl, rfl, rfl⟩

/-- C9, as stated, fails for block references: on an opcode absent from the
relocation table a block operand resolves, with one `reloc_bsr` record, while
the opcode switch of that same instruction aborts. -/
theorem block_reference_outside_table_resolves :
    specRelocKind (.other 0) = none
    ∧ payload (.MachineBasicBlock 5) = some (.block 5)
    ∧ relocSwitch ⟨.other 0, [.MachineBasicBlock 5]⟩ = .error .unknownRelocatableInstruction
    ∧ getMachineOpValue (traced bufferSink) ⟨.other 0, [.MachineBasicBlock 5]⟩
        (.MachineBasicBlock 5) (⟨[], [], 0, [], 0⟩, [])
      = .ok (0, (⟨[], [.getBB 0 .reloc_bsr 5], 0, [], 0⟩,
                  [.addRelocation (.getBB 0 .reloc_bsr 5)])) :=
  ⟨rfl, rfl, rfl, rfl⟩

/-- C9, amended: for an instruction whose opcode is absent from the relocation
table, resolving a global, external-symbol or constant-pool operand aborts
(`unknown relocatable instruction`), against every sink and in every state; no
value is returned. -/
theorem relocated_operand_outside_table_aborts {σ : Type} (MCE : MachineCodeEmitter σ)
    (MI : MachineInstr) (MO : MachineOperand) (s : σ)
    (hT : inRelocTable MI.opcode = false)
    (hMO : (MO.isGlobal || MO.isSymbol || MO.isCPI) = true) :
    getMachineOpValue MCE MI MO s = .error .unknownRelocatableInstruction := by
  have hk : specRelocKind MI.opcode = none := by
    cases hk : specRelocKind MI.opcode with
    | none => rfl
    | some k => simp [inRelocTable, hk] at hT
  have hsw := relocSwitch_not_in_table MI hk
  cases MO <;> simp [MachineOperand.isGlobal, MachineOperand.isSymbol, MachineOperand.isCPI] at hMO
  · rw [getMachineOpValue_global, hsw]
  · rw [getMachineOpValue_symbol, hsw]
  · rw [getMachineOpValue_cpi, hsw]

/-- C9, amended, at a concrete input: a global operand on an opcode outside the
table aborts. -/
theorem relocated_operand_outside_table_aborts_other :
    getMachineOpValue bufferSink ⟨.other 0, [.GlobalAddress ⟨2, false⟩]⟩
        (.GlobalAddress ⟨2, false⟩) ⟨[], [], 0, [], 0⟩
      = .error .unknownRelocatableInstruction :=
  relocated_operand_outside_table_aborts bufferSink ⟨.other 0, [.GlobalAddress ⟨2, false⟩]⟩
    (.GlobalAddress ⟨2, false⟩) ⟨[], [], 0, [], 0⟩ rfl rfl

/-! ### Replaying calls -/

theorem replay_append {σ : Type} (MCE : MachineCodeEmitter σ) (a b : List SinkCall) (s : σ) :
    replay MCE (a ++ b) s = replay MCE b (replay MCE a s) := by
  induction a generalizing s with
  | nil => rfl
  | cons c cs ih => exact ih (c.run MCE s)

theorem pc_replay_relocs {σ : Type} (MCE : MachineCodeEmitter σ)
    (hpc : ∀ r s, MCE.getCurrentPCOffset (MCE.addRelocation r s) = MCE.getCurrentPCOffset s)
    (rs : List MachineRelocation) (s : σ) :
    MCE.getCurrentPCOffset (replay MCE (rs.map SinkCall.addRelocation) s)
      = MCE.getCurrentPCOffset s := by
  induction rs generalizing s with
  | nil => rfl
  | cons r rs ih =>
    show MCE.getCurrentPCOffset (replay MCE (rs.map SinkCall.addRelocation)
      (MCE.addRelocation r s)) = _
    rw [ih, hpc]

theorem wordsOf_append (a b : List SinkCall) : wordsOf (a ++ b) = wordsOf a ++ wordsOf b := by
  induction a with
  | nil => rfl
  | cons c cs ih => cases c <;> simp [wordsOf, ih]

theorem wordsOf_relocs (rs : List MachineRelocation) :
    wordsOf (rs.map SinkCall.addRelocation) = [] := by
  induction rs with
  | nil => rfl
  | cons r rs ih => simpa [wordsOf] using ih

theorem wordsOf_groups (gs : List (List MachineRelocation × Nat)) :
    wordsOf (gs.flatMap groupCalls) = gs.map Prod.snd := by
  induction gs with
  | nil => rfl
  | cons g gs ih =>
    simp [groupCalls, wordsOf_append, wordsOf_relocs, wordsOf, ih]

/-! ### The calls of one operand, one instruction, one block -/

/-- A successful operand resolution on the traced sink adds a list `rs` of
records (one or none), each at the PC offset of the call; the same happens
from any other log, and the value does not depend on the sink. -/
theorem getMachineOpValue_traced {σ : Type} (MCE : MachineCodeEmitter σ) (MI : MachineInstr)
    (MO : MachineOperand) (s : σ) (log : List SinkCall) (v : Nat) (t : σ × List SinkCall)
    (h : getMachineOpValue (traced MCE) MI MO (s, log) = .ok (v, t)) :
    ∃ rs : List MachineRelocation,
      t = (replay MCE (rs.map SinkCall.addRelocation) s, log ++ rs.map SinkCall.addRelocation)
      ∧ (∀ r ∈ rs, r.offset = MCE.getCurrentPCOffset s)
      ∧ (∀ log2, getMachineOpValue (traced MCE) MI MO (s, log2)
            = .ok (v, (replay MCE (rs.map SinkCall.addRelocation) s,
                        log2 ++ rs.map SinkCall.addRelocation)))
      ∧ getMachineOpValue unitSink MI MO () = .ok (v, ()) := by
  cases MO with
  | Register r =>
    rw [getMachineOpValue_reg] at h
    cases hr : getAlphaRegNumber r with
    | error e => rw [hr] at h; cases h
    | ok n =>
      rw [hr] at h
      cases h
      refine ⟨[], by simp [replay], by simp, ?_, ?_⟩
      · intro log2
        rw [getMachineOpValue_reg, hr]
        simp [replay]
      · rw [getMachineOpValue_reg, hr]
  | Immediate c =>
    rw [getMachineOpValue_imm] at h
    cases h
    refine ⟨[], by simp [replay], by simp, ?_, rfl⟩
    intro log2
    rw [getMachineOpValue_imm]
    simp [replay]
  | GlobalAddress gv =>
    rw [getMachineOpValue_global] at h
    cases hsw : relocSwitch MI with
    | error e => rw [hsw] at h; cases h
    | ok x =>
      obtain ⟨k, off, got⟩ := x
      rw [hsw] at h
      cases h
      refine ⟨[.getGV (MCE.getCurrentPCOffset s) k gv off gv.isFunction got], rfl, ?_, ?_, ?_⟩
      · intro r hr
        simp at hr
        rw [hr]
        rfl
      · intro log2
        rw [getMachineOpValue_global, hsw]
        rfl
      · rw [getMachineOpValue_global, hsw]
  | ExternalSymbol name =>
    rw [getMachineOpValue_symbol] at h
    cases hsw : relocSwitch MI with
    | error e => rw [hsw] at h; cases h
    | ok x =>
      obtain ⟨k, off, got⟩ := x
      rw [hsw] at h
      cases h
      refine ⟨[.getExtSym (MCE.getCurrentPCOffset s) k name off true], rfl, ?_, ?_, ?_⟩
      · intro r hr
        simp at hr
        rw [hr]
        rfl
      · intro log2
        rw [getMachineOpValue_symbol, hsw]
        rfl
      · rw [getMachineOpValue_symbol, hsw]
  | ConstantPoolIndex index =>
    rw [getMachineOpValue_cpi] at h
    cases hsw : relocSwitch MI with
    | error e => rw [hsw] at h; cases h
    | ok x =>
      obtain ⟨k, off, got⟩ := x
      rw [hsw] at h
      cases h
      refine ⟨[.getConstPool (MCE.getCurrentPCOffset s) k index off], rfl, ?_, ?_, ?_⟩
      · intro r hr
        simp at hr
        rw [hr]
        rfl
      · intro log2
        rw [getMachineOpValue_cpi, hsw]
        rfl
      · rw [getMachineOpValue_cpi, hsw]
  | MachineBasicBlock mbb =>
    rw [getMachineOpValue_mbb] at h
    cases h
    refine ⟨[.getBB (MCE.getCurrentPCOffset s) .reloc_bsr mbb], rfl, ?_, ?_, rfl⟩
    · intro r hr
      simp at hr
      rw [hr]
      rfl
    · intro log2
      rfl
  | FrameIndex index =>
    rw [getMachineOpValue_frameIndex] at h
    cases h
  | JumpTableIndex index =>
    rw [getMachineOpValue_jumpTable] at h
    cases h

theorem resolveOperands_traced {σ : Type} (MCE : MachineCodeEmitter σ) (MI : MachineInstr)
    (ops : List MachineOperand) (s : σ) (log : List SinkCall) (vs : List Nat)
    (t : σ × List SinkCall)
    (h : resolveOperands (traced MCE) MI ops (s, log) = .ok (vs, t)) :
    ∃ rs : List MachineRelocation,
      t = (replay MCE (rs.map SinkCall.addRelocation) s, log ++ rs.map SinkCall.addRelocation)
      ∧ ((∀ r s, MCE.getCurrentPCOffset (MCE.addRelocation r s) = MCE.getCurrentPCOffset s) →
          ∀ r ∈ rs, r.offset = MCE.getCurrentPCOffset s)
      ∧ (∀ log2, resolveOperands (traced MCE) MI ops (s, log2)
            = .ok (vs, (replay MCE (rs.map SinkCall.addRelocation) s,
                        log2 ++ rs.map SinkCall.addRelocation)))
      ∧ resolveOperands unitSink MI ops () = .ok (vs, ()) := by
  induction ops generalizing s log vs t with
  | nil =>
    simp only [resolveOperands] at h
    cases h
    exact ⟨[], by simp [replay], fun _ r hr => by simp at hr,
      fun log2 => by simp [resolveOperands, replay], rfl⟩
  | cons MO rest ih =>
    simp only [resolveOperands] at h
    cases hg : getMachineOpValue (traced MCE) MI MO (s, log) with
    | error e => rw [hg] at h; cases h
    | ok x =>
      obtain ⟨v, t1⟩ := x
      rw [hg] at h
      dsimp only at h
      obtain ⟨rs1, ht1, hoff1, hlog1, hunit1⟩ := getMachineOpValue_traced MCE MI MO s log v t1 hg
      subst ht1
      cases hr : resolveOperands (traced MCE) MI rest
          (replay MCE (rs1.map SinkCall.addRelocation) s,
            log ++ rs1.map SinkCall.addRelocation) with
      | error e => rw [hr] at h; cases h
      | ok y =>
        obtain ⟨vs2, t2⟩ := y
        rw [hr] at h
        cases h
        obtain ⟨rs2, ht2, hoff2, hlog2, hunit2⟩ := ih _ _ _ _ hr
        subst ht2
        refine ⟨rs1 ++ rs2, ?_, ?_, ?_, ?_⟩
        · simp [replay_append, List.append_assoc]
        · intro hpc r hr
          rcases List.mem_append.1 hr with hr | hr
          · exact hoff1 r hr
          · rw [hoff2 hpc r hr, pc_replay_relocs MCE hpc]
        · intro log2
          simp only [resolveOperands]
          rw [hlog1 log2]
          simp only []
          rw [hlog2 (log2 ++ rs1.map SinkCall.addRelocation)]
          simp [replay_append, List.append_assoc]
        · simp only [resolveOperands]
          rw [hunit1]
          simp only []
          rw [hunit2]

theorem getBinaryCodeForInstr_traced {σ : Type} (encode : Opcode → List Nat → Nat)
    (MCE : MachineCodeEmitter σ) (MI : MachineInstr) (s : σ) (log : List SinkCall) (w : Nat)
    (t : σ × List SinkCall)
    (h : getBinaryCodeForInstr encode (traced MCE) MI (s, log) = .ok (w, t)) :
    ∃ rs : List MachineRelocation,
      t = (replay MCE (rs.map SinkCall.addRelocation) s, log ++ rs.map SinkCall.addRelocation)
      ∧ ((∀ r s, MCE.getCurrentPCOffset (MCE.addRelocation r s) = MCE.getCurrentPCOffset s) →
          ∀ r ∈ rs, r.offset = MCE.getCurrentPCOffset s)
      ∧ getBinaryCodeForInstr encode (traced MCE) MI (s, [])
            = .ok (w, (replay MCE (rs.map SinkCall.addRelocation) s,
                        rs.map SinkCall.addRelocation))
      ∧ IsWordOf encode MI w := by
  simp only [getBinaryCodeForInstr] at h
  cases hr : resolveOperands (traced MCE) MI MI.operands (s, log) with
  | error e => rw [hr] at h; cases h
  | ok x =>
    obtain ⟨vs, t1⟩ := x
    rw [hr] at h
    cases h
    obtain ⟨rs, ht, hoff, hlog, hunit⟩ := resolveOperands_traced MCE MI MI.operands s log vs t hr
    refine ⟨rs, ht, hoff, ?_, ?_⟩
    · simp only [getBinaryCodeForInstr]
      rw [hlog []]
      simp
    · simp only [IsWordOf, getBinaryCodeForInstr]
      rw [hunit]

theorem emitInstrs_cons_pseudo {σ : Type} (encode : Opcode → List Nat → Nat)
    (MCE : MachineCodeEmitter σ) (MI : MachineInstr) (rest : List MachineInstr) (s : σ)
    (h : isPseudoMarker MI.opcode = true) :
    emitInstrs encode MCE (MI :: rest) s = emitInstrs encode MCE rest s := by
  obtain ⟨op, ops⟩ := MI
  cases op <;> simp [isPseudoMarker] at h <;> rfl

theorem emitInstrs_cons_code {σ : Type} (encode : Opcode → List Nat → Nat)
    (MCE : MachineCodeEmitter σ) (MI : MachineInstr) (rest : List MachineInstr) (s : σ)
    (h : isPseudoMarker MI.opcode = false) :
    emitInstrs encode MCE (MI :: rest) s =
      match getBinaryCodeForInstr encode MCE MI s with
      | .error e => .error e
      | .ok (w, s1) => emitInstrs encode MCE rest (MCE.emitWordLE w s1) := by
  obtain ⟨op, ops⟩ := MI
  cases op <;> simp [isPseudoMarker] at h <;> rfl

theorem nonPseudo_cons_pseudo (MI : MachineInstr) (rest : List MachineInstr)
    (h : isPseudoMarker MI.opcode = true) : nonPseudo (MI :: rest) = nonPseudo rest := by
  simp [nonPseudo, h]

theorem nonPseudo_cons_code (MI : MachineInstr) (rest : List MachineInstr)
    (h : isPseudoMarker MI.opcode = false) : nonPseudo (MI :: rest) = MI :: nonPseudo rest := by
  simp [nonPseudo, h]

theorem nonPseudo_append (a b : List MachineInstr) :
    nonPseudo (a ++ b) = nonPseudo a ++ nonPseudo b := by
  simp [nonPseudo]

/-- The calls of the instruction loop: one group per non-pseudo instruction. -/
theorem emitInstrs_traced {σ : Type} (encode : Opcode → List Nat → Nat)
    (MCE : MachineCodeEmitter σ) (instrs : List MachineInstr) (s : σ) (log : List SinkCall)
    (t : σ × List SinkCall)
    (h : emitInstrs encode (traced MCE) instrs (s, log) = .ok t) :
    ∃ gs : List (List MachineRelocation × Nat),
      t = (replay MCE (gs.flatMap groupCalls) s, log ++ gs.flatMap groupCalls)
      ∧ EncodedGroups encode MCE (nonPseudo instrs) gs s
      ∧ List.Forall₂ (IsWordOf encode) (nonPseudo instrs) (gs.map Prod.snd)
      ∧ ((∀ r s, MCE.getCurrentPCOffset (MCE.addRelocation r s) = MCE.getCurrentPCOffset s) →
          GroupsPlaced MCE gs s) := by
  induction instrs generalizing s log t with
  | nil =>
    simp only [emitInstrs] at h
    cases h
    exact ⟨[], by simp [replay], by simp [nonPseudo, EncodedGroups],
      by simp [nonPseudo], fun _ => by simp [GroupsPlaced]⟩
  | cons MI rest ih =>
    cases hp : isPseudoMarker MI.opcode with
    | true =>
      rw [emitInstrs_cons_pseudo encode (traced MCE) MI rest (s, log) hp] at h
      rw [nonPseudo_cons_pseudo MI rest hp]
      exact ih s log t h
    | false =>
      rw [emitInstrs_cons_code encode (traced MCE) MI rest (s, log) hp] at h
      rw [nonPseudo_cons_code MI rest hp]
      cases hb : getBinaryCodeForInstr encode (traced MCE) MI (s, log) with
      | error e => rw [hb] at h; cases h
      | ok x =>
        obtain ⟨w, t1⟩ := x
        rw [hb] at h
        dsimp only at h
        obtain ⟨rs, ht1, hoff, hrun, hword⟩ :=
          getBinaryCodeForInstr_traced encode MCE MI s log w t1 hb
        subst ht1
        have h2 : emitInstrs encode (traced MCE) rest
            (replay MCE (groupCalls (rs, w)) s, log ++ groupCalls (rs, w)) = .ok t := by
          simpa [groupCalls, replay_append, replay, SinkCall.run, traced, List.append_assoc]
            using h
        obtain ⟨gs, ht, henc, hwords, hplaced⟩ := ih _ _ t h2
        refine ⟨(rs, w) :: gs, ?_, ?_, ?_, ?_⟩
        · rw [ht]
          simp [replay_append, List.append_assoc]
        · exact ⟨hrun, henc⟩
        · exact List.Forall₂.cons hword hwords
        · intro hpc
          refine ⟨?_, hplaced hpc⟩
          intro r hr
          rw [pc_replay_relocs MCE hpc]
          exact hoff hpc r hr

theorem replay_groupCalls {σ : Type} (MCE : MachineCodeEmitter σ)
    (g : List MachineRelocation × Nat) (s : σ) :
    replay MCE (groupCalls g) s
      = MCE.emitWordLE g.2 (replay MCE (g.1.map SinkCall.addRelocation) s) := by
  simp [groupCalls, replay_append, replay, SinkCall.run]

/-- With a sink whose PC does not move on `addRelocation` and advances by `d`
on `emitWordLE`, the records of group `j` carry the offset `pc + d * j`. -/
theorem groupsPlaced_offsets {σ : Type} (MCE : MachineCodeEmitter σ)
    (hpc : ∀ r s, MCE.getCurrentPCOffset (MCE.addRelocation r s) = MCE.getCurrentPCOffset s)
    (d : Int)
    (hword : ∀ w s, MCE.getCurrentPCOffset (MCE.emitWordLE w s) = MCE.getCurrentPCOffset s + d)
    (gs : List (List MachineRelocation × Nat)) (s : σ) (hpl : GroupsPlaced MCE gs s)
    (j : Nat) (g : List MachineRelocation × Nat) (hj : gs[j]? = some g)
    (r : MachineRelocation) (hr : r ∈ g.1) :
    r.offset = MCE.getCurrentPCOffset s + d * j := by
  induction gs generalizing s j with
  | nil => simp at hj
  | cons g0 gs ih =>
    obtain ⟨h0, hrest⟩ := hpl
    cases j with
    | zero =>
      simp at hj
      subst hj
      rw [h0 r hr, pc_replay_relocs MCE hpc]
      simp
    | succ j =>
      simp at hj
      rw [ih _ hrest j hj, replay_groupCalls, hword, pc_replay_relocs MCE hpc]
      push_cast
      ring

theorem encodedGroups_length {σ : Type} (encode : Opcode → List Nat → Nat)
    (MCE : MachineCodeEmitter σ) (instrs : List MachineInstr)
    (gs : List (List MachineRelocation × Nat)) (s : σ)
    (h : EncodedGroups encode MCE instrs gs s) : gs.length = instrs.length := by
  induction instrs generalizing gs s with
  | nil =>
    cases gs with
    | nil => rfl
    | cons g gs => exact absurd h (by simp [EncodedGroups])
  | cons MI rest ih =>
    cases gs with
    | nil => exact absurd h (by simp [EncodedGroups])
    | cons g gs =>
      simp only [EncodedGroups] at h
      simp [ih gs _ h.2]

/-- The calls of the block loop, and the words among them. -/
theorem emitBlocks_traced {σ : Type} (encode : Opcode → List Nat → Nat)
    (MCE : MachineCodeEmitter σ) (blocks : List MachineBasicBlock) (s : σ)
    (log : List SinkCall) (t : σ × List SinkCall)
    (h : emitBlocks encode (traced MCE) blocks (s, log) = .ok t) :
    ∃ calls : List SinkCall,
      t = (replay MCE calls s, log ++ calls)
      ∧ List.Forall₂ (IsWordOf encode)
          (nonPseudo (blocks.flatMap (fun MBB => MBB.instrs))) (wordsOf calls) := by
  induction blocks generalizing s log t with
  | nil =>
    simp only [emitBlocks] at h
    cases h
    exact ⟨[], by simp [replay], by simp [nonPseudo, wordsOf]⟩
  | cons MBB rest ih =>
    simp only [emitBlocks] at h
    cases hb : emitBasicBlock encode (traced MCE) MBB (s, log) with
    | error e => rw [hb] at h; cases h
    | ok t1 =>
      rw [hb] at h
      dsimp only at h
      have hb1 : emitInstrs encode (traced MCE) MBB.instrs
          (MCE.StartMachineBasicBlock MBB s, log ++ [.StartMachineBasicBlock MBB]) = .ok t1 := hb
      obtain ⟨gs, ht1, _, hwords, _⟩ := emitInstrs_traced encode MCE MBB.instrs _ _ t1 hb1
      subst ht1
      obtain ⟨calls, ht, hrest⟩ := ih _ _ t h
      refine ⟨.StartMachineBasicBlock MBB :: (gs.flatMap groupCalls ++ calls), ?_, ?_⟩
      · rw [ht]
        simp [replay, SinkCall.run, replay_append, List.append_assoc]
      · rw [List.flatMap_cons, nonPseudo_append]
        have hw : wordsOf (.StartMachineBasicBlock MBB :: (gs.flatMap groupCalls ++ calls))
            = gs.map Prod.snd ++ wordsOf calls := by
          simp [wordsOf, wordsOf_append, wordsOf_groups]
        rw [hw]
        exact List.rel_append hwords hrest

/-! ### The block emitter and the function driver -/

/-- C6: in `emitBasicBlock` the calls after the block notification fall into
one group per non-pseudo instruction, in order; the group of an instruction is
the records added while its operands are resolved followed by its word, so
every record precedes the word of its instruction.  Against a sink whose PC
offset is not moved by `addRelocation`, each record carries the PC offset the
sink reports right before that word is emitted; if moreover every `emitWordLE`
advances the PC by `d`, the records of the `j`-th non-pseudo instruction carry
the offset of the `j`-th word, `pc + d * j`. -/
theorem relocations_precede_word {σ : Type} (encode : Opcode → List Nat → Nat)
    (MCE : MachineCodeEmitter σ) (MBB : MachineBasicBlock) (s : σ) (log : List SinkCall)
    (t : σ × List SinkCall)
    (h : emitBasicBlock encode (traced MCE) MBB (s, log) = .ok t) :
    ∃ gs : List (List MachineRelocation × Nat),
      t = (replay MCE (gs.flatMap groupCalls) (MCE.StartMachineBasicBlock MBB s),
            log ++ .StartMachineBasicBlock MBB :: gs.flatMap groupCalls)
      ∧ gs.length = (nonPseudo MBB.instrs).length
      ∧ EncodedGroups encode MCE (nonPseudo MBB.instrs) gs (MCE.StartMachineBasicBlock MBB s)
      ∧ ((∀ r s, MCE.getCurrentPCOffset (MCE.addRelocation r s) = MCE.getCurrentPCOffset s) →
          GroupsPlaced MCE gs (MCE.StartMachineBasicBlock MBB s)
          ∧ ∀ d : Int,
              (∀ w s, MCE.getCurrentPCOffset (MCE.emitWordLE w s)
                = MCE.getCurrentPCOffset s + d) →
              ∀ (j : Nat) (g : List MachineRelocation × Nat), gs[j]? = some g → ∀ r ∈ g.1,
                r.offset
                  = MCE.getCurrentPCOffset (MCE.StartMachineBasicBlock MBB s) + d * j) := by
  have hb1 : emitInstrs encode (traced MCE) MBB.instrs
      (MCE.StartMachineBasicBlock MBB s, log ++ [.StartMachineBasicBlock MBB]) = .ok t := h
  obtain ⟨gs, ht, henc, _, hplaced⟩ := emitInstrs_traced encode MCE MBB.instrs _ _ t hb1
  refine ⟨gs, ?_, encodedGroups_length encode MCE _ gs _ henc, henc, ?_⟩
  · rw [ht]
    simp [List.append_assoc]
  · intro hpc
    refine ⟨hplaced hpc, ?_⟩
    intro d hword j g hj r hr
    exact groupsPlaced_offsets MCE hpc d hword gs _ (hplaced hpc) j g hj r hr

/-- C6, on the sample block against the buffer sink, from an empty buffer: the
calls are the block notification and three groups, and the records of the
`j`-th encoded instruction carry the offset `4 * j` of its word. -/
theorem relocations_precede_word_sample :
    ∃ gs : List (List MachineRelocation × Nat),
      sampleBlockCalls = .StartMachineBasicBlock sampleBlock :: gs.flatMap groupCalls
      ∧ gs.length = 3
      ∧ ∀ (j : Nat) (g : List MachineRelocation × Nat), gs[j]? = some g → ∀ r ∈ g.1,
          r.offset = 4 * j := by
  have hrun : emitBasicBlock sampleEncode (traced bufferSink) sampleBlock
      (⟨[], [], 0, [], 0⟩, []) = .ok (sampleBlockBuffer, [] ++ sampleBlockCalls) := rfl
  obtain ⟨gs, ht, hlen, _, hplaced⟩ :=
    relocations_precede_word sampleEncode bufferSink sampleBlock ⟨[], [], 0, [], 0⟩ []
      (sampleBlockBuffer, [] ++ sampleBlockCalls) hrun
  refine ⟨gs, ?_, hlen, ?_⟩
  · exact congrArg Prod.snd ht
  · intro j g hj r hr
    have h4 := (hplaced (fun _ _ => rfl)).2 4 (fun _ _ => rfl) j g hj r hr
    rw [h4]
    show (0 : Int) + 4 * j = 4 * j
    omega

/-- C7: one successful pass over a function (`startFunction`, then every block)
passes to `emitWordLE` exactly the words of the non-pseudo instructions of all
blocks, in program order: the words among the calls made are, one for one and
in order, the encoder's words of those instructions, so there are as many
words as non-pseudo instructions. -/
theorem one_word_per_code_instruction {σ : Type} (encode : Opcode → List Nat → Nat)
    (MCE : MachineCodeEmitter σ) (MF : MachineFunction) (s : σ) (log : List SinkCall)
    (t : σ × List SinkCall)
    (h : emitFunctionBody encode (traced MCE) MF (s, log) = .ok t) :
    ∃ calls : List SinkCall,
      t = (replay MCE calls s, log ++ calls)
      ∧ List.Forall₂ (IsWordOf encode) (nonPseudo (allInstrs MF)) (wordsOf calls)
      ∧ (wordsOf calls).length = (nonPseudo (allInstrs MF)).length := by
  have h1 : emitBlocks encode (traced MCE) MF.blocks
      (MCE.startFunction MF s, log ++ [.startFunction MF]) = .ok t := h
  obtain ⟨calls, ht, hwords⟩ := emitBlocks_traced encode MCE MF.blocks _ _ t h1
  refine ⟨.startFunction MF :: calls, ?_, ?_, ?_⟩
  · rw [ht]
    simp [replay, SinkCall.run, List.append_assoc]
  · exact hwords
  · exact (List.Forall₂.length_eq hwords).symm


/-- C7, on the sample function against the buffer sink: four words for its
four non-pseudo instructions, the `PCLABEL` marker and the empty block giving
none. -/
theorem one_word_per_code_instruction_sample :
    ∃ calls : List SinkCall,
      (sampleFunctionBuffer, [] ++ sampleFunctionCalls)
        = (replay bufferSink calls ⟨[9], [], 4, [], 0⟩, [] ++ calls)
      ∧ List.Forall₂ (IsWordOf sampleEncode) (nonPseudo (allInstrs sampleFunction))
          (wordsOf calls)
      ∧ (wordsOf calls).length = (nonPseudo (allInstrs sampleFunction)).length :=
  one_word_per_code_instruction sampleEncode bufferSink sampleFunction ⟨[9], [], 4, [], 0⟩ []
    (sampleFunctionBuffer, [] ++ sampleFunctionCalls) rfl

/-! ### Failures and values of the operand resolver -/

/-- C11: `getAlphaRegNumber` returns a value exactly for the 64 identifiers
`R0..R31`, `F0..F31`; for every other identifier it aborts (`Unhandled reg`) and
returns no default, and so does `getMachineOpValue` on a register operand
holding such an identifier, for every instruction, sink and state. -/
theorem getAlphaRegNumber_defined_iff :
    (∀ r : Reg, (∃ n, getAlphaRegNumber r = .ok n) ↔ (r ∈ bankR ∨ r ∈ bankF))
    ∧ (∀ r : Reg, r ∉ bankR → r ∉ bankF → getAlphaRegNumber r = .error .unhandledReg)
    ∧ (∀ id : Nat, getAlphaRegNumber (.other id) = .error .unhandledReg)
    ∧ (∀ (σ : Type) (MCE : MachineCodeEmitter σ) (MI : MachineInstr) (r : Reg) (s : σ),
        r ∉ bankR → r ∉ bankF →
          getMachineOpValue MCE MI (.Register r) s = .error .unhandledReg)
    ∧ bankR.length + bankF.length = 64 := by
  have hnot : ∀ r : Reg, r ∉ bankR → r ∉ bankF → getAlphaRegNumber r = .error .unhandledReg := by
    intro r h1 h2
    cases r <;> first
      | rfl
      | (exfalso; apply h1; simp [bankR]; done)
      | (exfalso; apply h2; simp [bankF])
  refine ⟨?_, hnot, fun _ => rfl, ?_, rfl⟩
  · intro r
    constructor
    · rintro ⟨n, hn⟩
      cases r <;> first | (left; simp [bankR]; done) | (right; simp [bankF]; done) | cases hn
    · intro h
      cases r <;> first | exact ⟨_, rfl⟩ | (simp [bankR, bankF] at h)
  · intro σ MCE MI r s h1 h2
    rw [getMachineOpValue_reg, hnot r h1 h2]

/-- C12: an operand whose tag is none of register, immediate, global, external
symbol, constant-pool index and block makes `getMachineOpValue` abort
(`Unknown type of MachineOperand`), for every instruction and opcode, sink and
state; the initial value 0 of `rv` is not returned. -/
theorem unknown_operand_tag_aborts {σ : Type} (MCE : MachineCodeEmitter σ)
    (MI : MachineInstr) (MO : MachineOperand) (s : σ)
    (h : (MO.isReg || MO.isImm || MO.isGlobal || MO.isSymbol || MO.isCPI || MO.isMBB) = false) :
    getMachineOpValue MCE MI MO s = .error .unknownMachineOperand := by
  cases MO <;>
    simp [MachineOperand.isReg, MachineOperand.isImm, MachineOperand.isGlobal,
      MachineOperand.isSymbol, MachineOperand.isCPI, MachineOperand.isMBB] at h <;> rfl

/-- C12, at a concrete input: a frame-index operand of a `LDQr` aborts. -/
theorem unknown_operand_tag_aborts_frame_index :
    getMachineOpValue bufferSink ⟨.LDQr, [.Register .R1, .FrameIndex 2, .Register .R30]⟩
        (.FrameIndex 2) ⟨[], [], 0, [], 0⟩ = .error .unknownMachineOperand :=
  unknown_operand_tag_aborts bufferSink ⟨.LDQr, [.Register .R1, .FrameIndex 2, .Register .R30]⟩
    (.FrameIndex 2) ⟨[], [], 0, [], 0⟩ rfl

theorem toUnsigned_cast (v : Int) : ((toUnsigned v : Nat) : Int) = v % 2 ^ 32 := by
  unfold toUnsigned
  exact Int.toNat_of_nonneg (Int.emod_nonneg v (by norm_num))

/-- C13, as stated, fails: the return type is `unsigned`.  The immediate `-8`
comes back as `4294967288`, not as `-8`. -/
theorem immediate_is_reduced :
    getMachineOpValue bufferSink ⟨.LDAr, [.Register .R30, .Immediate (-8), .Register .R30]⟩
        (.Immediate (-8)) ⟨[], [], 0, [], 0⟩ = .ok (4294967288, ⟨[], [], 0, [], 0⟩)
    ∧ ((4294967288 : Nat) : Int) ≠ -8 :=
  ⟨rfl, by decide⟩

/-- C13, amended: for an immediate operand with value `v`, `getMachineOpValue`
returns `v` reduced modulo `2^32` (the conversion to `unsigned`), which is `v`
itself when `0 ≤ v < 2^32`, whatever the instruction's opcode, and leaves the
sink as it is. -/
theorem immediate_value_mod_2_32 {σ : Type} (MCE : MachineCodeEmitter σ) (MI : MachineInstr)
    (v : Int) (s : σ) :
    getMachineOpValue MCE MI (.Immediate v) s = .ok (toUnsigned v, s)
      ∧ ((toUnsigned v : Nat) : Int) = v % 2 ^ 32
      ∧ toUnsigned v < 2 ^ 32
      ∧ (0 ≤ v → v < 2 ^ 32 → ((toUnsigned v : Nat) : Int) = v) := by
  have hc := toUnsigned_cast v
  refine ⟨rfl, hc, ?_, ?_⟩
  · have h2 : v % 2 ^ 32 < 2 ^ 32 := Int.emod_lt_of_pos v (by norm_num)
    have h3 : ((toUnsigned v : Nat) : Int) < 2 ^ 32 := by rw [hc]; exact h2
    exact_mod_cast h3
  · intro h0 h1
    rw [hc]
    exact Int.emod_eq_of_lt h0 h1

/-- C14: when the resolution of a global, external-symbol, constant-pool or
block operand succeeds, the value returned is the placeholder 0, whatever the
target, the opcode, the extra offset, the sink and its PC offset. -/
theorem symbolic_placeholder_zero {σ : Type} (MCE : MachineCodeEmitter σ) (MI : MachineInstr)
    (MO : MachineOperand) (s : σ) (v : Nat) (s1 : σ)
    (hMO : (payload MO).isSome = true)
    (h : getMachineOpValue MCE MI MO s = .ok (v, s1)) :
    v = 0 ∧ getMachineOpValue MCE MI MO s = .ok (0, s1) := by
  have hv : v = 0 := by
    cases MO with
    | Register r => simp [payload] at hMO
    | Immediate c => simp [payload] at hMO
    | GlobalAddress gv =>
      rw [getMachineOpValue_global] at h
      cases hsw : relocSwitch MI with
      | error e => rw [hsw] at h; cases h
      | ok x => rw [hsw] at h; cases h; rfl
    | ExternalSymbol name =>
      rw [getMachineOpValue_symbol] at h
      cases hsw : relocSwitch MI with
      | error e => rw [hsw] at h; cases h
      | ok x => rw [hsw] at h; cases h; rfl
    | ConstantPoolIndex index =>
      rw [getMachineOpValue_cpi] at h
      cases hsw : relocSwitch MI with
      | error e => rw [hsw] at h; cases h
      | ok x => rw [hsw] at h; cases h; rfl
    | MachineBasicBlock mbb =>
      rw [getMachineOpValue_mbb] at h
      cases h
      rfl
    | FrameIndex index => simp [payload] at hMO
    | JumpTableIndex index => simp [payload] at hMO
  subst hv
  exact ⟨rfl, h⟩

/-- C14, at a concrete input: `LDAHg` with offset operand 40 and an external
symbol, against a buffer sink at PC offset 128, returns 0. -/
theorem symbolic_placeholder_zero_ldahg :
    (0 : Nat) = 0
    ∧ getMachineOpValue bufferSink
        ⟨.LDAHg, [.Register .R29, .ExternalSymbol "gp", .Register .R27, .Immediate 40]⟩
        (.ExternalSymbol "gp") ⟨[], [], 128, [], 0⟩
      = .ok (0, ⟨[], [.getExtSym 128 .reloc_gpdist "gp" 40 true], 128, [], 0⟩) :=
  symbolic_placeholder_zero bufferSink
    ⟨.LDAHg, [.Register .R29, .ExternalSymbol "gp", .Register .R27, .Immediate 40]⟩
    (.ExternalSymbol "gp") ⟨[], [], 128, [], 0⟩ 0
    ⟨[], [.getExtSym 128 .reloc_gpdist "gp" 40 true], 128, [], 0⟩ rfl rfl

/-- C18: for an external-symbol operand of an instruction whose opcode is in the
relocation table, the record is `getExtSym pc k name off true`: kind and extra
offset are those of the opcode switch, the flag argument is the constant
`true` whatever `useGOT` the switch computed.  So the record has the same flag
for `BSR` (`useGOT = false`) and for `LDQl` (`useGOT = true`), while the
`getGV` record of a global on these opcodes carries `false` and `true`. -/
theorem external_symbol_flag_is_true {σ : Type} (MCE : MachineCodeEmitter σ)
    (MI : MachineInstr) (name : String) (s : σ) (log : List SinkCall)
    (hT : inRelocTable MI.opcode = true) :
    (∀ v t, getMachineOpValue (traced MCE) MI (.ExternalSymbol name) (s, log) = .ok (v, t) →
        ∃ k off got, relocSwitch MI = .ok (k, off, got)
          ∧ t = (MCE.addRelocation
                  (.getExtSym (MCE.getCurrentPCOffset s) k name off true) s,
                 log ++ [.addRelocation
                  (.getExtSym (MCE.getCurrentPCOffset s) k name off true)]))
    ∧ ((usesOffsetOperand MI.opcode = true → ∃ c, MI.operands[3]? = some (.Immediate c)) →
        ∃ t, getMachineOpValue (traced MCE) MI (.ExternalSymbol name) (s, log) = .ok (0, t))
    ∧ (∀ (ops : List MachineOperand) (gv : GlobalValue),
        relocSwitch ⟨.BSR, ops⟩ = .ok (.reloc_bsr, 0, false)
        ∧ relocSwitch ⟨.LDQl, ops⟩ = .ok (.reloc_literal, 0, true)
        ∧ getMachineOpValue (traced MCE) ⟨.BSR, ops⟩ (.ExternalSymbol name) (s, log)
            = .ok (0, (MCE.addRelocation
                  (.getExtSym (MCE.getCurrentPCOffset s) .reloc_bsr name 0 true) s,
                 log ++ [.addRelocation
                  (.getExtSym (MCE.getCurrentPCOffset s) .reloc_bsr name 0 true)]))
        ∧ getMachineOpValue (traced MCE) ⟨.LDQl, ops⟩ (.ExternalSymbol name) (s, log)
            = .ok (0, (MCE.addRelocation
                  (.getExtSym (MCE.getCurrentPCOffset s) .reloc_literal name 0 true) s,
                 log ++ [.addRelocation
                  (.getExtSym (MCE.getCurrentPCOffset s) .reloc_literal name 0 true)]))
        ∧ getMachineOpValue (traced MCE) ⟨.BSR, ops⟩ (.GlobalAddress gv) (s, log)
            = .ok (0, (MCE.addRelocation
                  (.getGV (MCE.getCurrentPCOffset s) .reloc_bsr gv 0 gv.isFunction false) s,
                 log ++ [.addRelocation
                  (.getGV (MCE.getCurrentPCOffset s) .reloc_bsr gv 0 gv.isFunction false)]))
        ∧ getMachineOpValue (traced MCE) ⟨.LDQl, ops⟩ (.GlobalAddress gv) (s, log)
            = .ok (0, (MCE.addRelocation
                  (.getGV (MCE.getCurrentPCOffset s) .reloc_literal gv 0 gv.isFunction true) s,
                 log ++ [.addRelocation
                  (.getGV (MCE.getCurrentPCOffset s) .reloc_literal gv 0 gv.isFunction true)]))) := by
  refine ⟨?_, ?_, fun _ _ => ⟨rfl, rfl, rfl, rfl, rfl, rfl⟩⟩
  · intro v t h
    obtain ⟨k, off, got, r, hsw, _, ht, _, _, _, _, _, hsym, _⟩ :=
      getMachineOpValue_relocated_ok MCE MI (.ExternalSymbol name) s log v t rfl h
    have hr := hsym name rfl
    exact ⟨k, off, got, hsw, by rw [ht, hr]⟩
  · intro h3
    cases hk : specRelocKind MI.opcode with
    | none => simp [inRelocTable, hk] at hT
    | some k =>
      obtain ⟨off, got, hsw⟩ := relocSwitch_in_table MI k hk h3
      exact getMachineOpValue_relocated_succeeds (traced MCE) MI (.ExternalSymbol name) (s, log)
        k off got rfl hsw

/-- C18, at a concrete input: an external symbol on `LDQl` against a buffer sink. -/
theorem external_symbol_flag_is_true_ldql :
    ∃ t, getMachineOpValue (traced bufferSink)
          ⟨.LDQl, [.Register .R27, .ExternalSymbol "memcpy", .Register .R29]⟩
          (.ExternalSymbol "memcpy") (⟨[], [], 16, [], 0⟩, []) = .ok (0, t) :=
  (external_symbol_flag_is_true bufferSink
    ⟨.LDQl, [.Register .R27, .ExternalSymbol "memcpy", .Register .R29]⟩ "memcpy"
    ⟨[], [], 16, [], 0⟩ [] rfl).2.1 (fun h => absurd h (by decide))

/-- C19: for a global operand `G` of an instruction whose opcode is in the
relocation table, the callable flag of the `getGV` record is `isa<Function>(G)`
whatever the opcode: `BSR` on a data global gives `false`, the load `LDQr` on a
function gives `true`.  The records of a constant-pool operand and of a block
operand are built by `getConstPool` and `getBB`, which are passed no flag. -/
theorem global_callable_iff_function {σ : Type} (MCE : MachineCodeEmitter σ)
    (MI : MachineInstr) (G : GlobalValue) (s : σ) (log : List SinkCall)
    (hT : inRelocTable MI.opcode = true) :
    (∀ v t, getMachineOpValue (traced MCE) MI (.GlobalAddress G) (s, log) = .ok (v, t) →
        ∃ k off callable got,
          t = (MCE.addRelocation
                  (.getGV (MCE.getCurrentPCOffset s) k G off callable got) s,
                 log ++ [.addRelocation
                  (.getGV (MCE.getCurrentPCOffset s) k G off callable got)])
          ∧ (callable = true ↔ G.isFunction = true))
    ∧ ((usesOffsetOperand MI.opcode = true → ∃ c, MI.operands[3]? = some (.Immediate c)) →
        ∃ t, getMachineOpValue (traced MCE) MI (.GlobalAddress G) (s, log) = .ok (0, t))
    ∧ (∀ (ops : List MachineOperand) (id : Nat),
        getMachineOpValue (traced MCE) ⟨.BSR, ops⟩ (.GlobalAddress ⟨id, false⟩) (s, log)
            = .ok (0, (MCE.addRelocation
                  (.getGV (MCE.getCurrentPCOffset s) .reloc_bsr ⟨id, false⟩ 0 false false) s,
                 log ++ [.addRelocation
                  (.getGV (MCE.getCurrentPCOffset s) .reloc_bsr ⟨id, false⟩ 0 false false)]))
        ∧ getMachineOpValue (traced MCE) ⟨.LDQr, ops⟩ (.GlobalAddress ⟨id, true⟩) (s, log)
            = .ok (0, (MCE.addRelocation
                  (.getGV (MCE.getCurrentPCOffset s) .reloc_gprellow ⟨id, true⟩ 0 true false) s,
                 log ++ [.addRelocation
                  (.getGV (MCE.getCurrentPCOffset s) .reloc_gprellow ⟨id, true⟩ 0 true false)])))
    ∧ (∀ (index : Nat) v t,
        getMachineOpValue (traced MCE) MI (.ConstantPoolIndex index) (s, log) = .ok (v, t) →
        ∃ k off,
          t = (MCE.addRelocation (.getConstPool (MCE.getCurrentPCOffset s) k index off) s,
                log ++ [.addRelocation (.getConstPool (MCE.getCurrentPCOffset s) k index off)]))
    ∧ (∀ B : Nat,
        getMachineOpValue (traced MCE) MI (.MachineBasicBlock B) (s, log)
          = .ok (0, (MCE.addRelocation (.getBB (MCE.getCurrentPCOffset s) .reloc_bsr B) s,
                log ++ [.addRelocation (.getBB (MCE.getCurrentPCOffset s) .reloc_bsr B)]))) := by
  refine ⟨?_, ?_, fun _ _ => ⟨rfl, rfl⟩, ?_, fun _ => rfl⟩
  · intro v t h
    obtain ⟨k, off, got, r, _, _, ht, _, _, _, _, hgv, _⟩ :=
      getMachineOpValue_relocated_ok MCE MI (.GlobalAddress G) s log v t rfl h
    have hr := hgv G rfl
    exact ⟨k, off, G.isFunction, got, by rw [ht, hr], Iff.rfl⟩
  · intro h3
    cases hk : specRelocKind MI.opcode with
    | none => simp [inRelocTable, hk] at hT
    | some k =>
      obtain ⟨off, got, hsw⟩ := relocSwitch_in_table MI k hk h3
      exact getMachineOpValue_relocated_succeeds (traced MCE) MI (.GlobalAddress G) (s, log)
        k off got rfl hsw
  · intro index v t h
    obtain ⟨k, off, got, r, _, _, ht, _, _, _, _, _, _, hcp⟩ :=
      getMachineOpValue_relocated_ok MCE MI (.ConstantPoolIndex index) s log v t rfl h
    have hr := hcp index rfl
    exact ⟨k, off, by rw [ht, hr]⟩

/-- C19, at a concrete input: `STQr` on a function global against a buffer sink. -/
theorem global_callable_iff_function_stqr :
    ∃ t, getMachineOpValue (traced bufferSink)
          ⟨.STQr, [.Register .R1, .GlobalAddress ⟨3, true⟩, .Register .R29]⟩
          (.GlobalAddress ⟨3, true⟩) (⟨[], [], 20, [], 0⟩, []) = .ok (0, t) :=
  (global_callable_iff_function bufferSink
    ⟨.STQr, [.Register .R1, .GlobalAddress ⟨3, true⟩, .Register .R29]⟩ ⟨3, true⟩
    ⟨[], [], 20, [], 0⟩ [] rfl).2.1 (fun h => absurd h (by decide))

/-! ### Pseudo-markers -/

/-- C15: an instruction whose opcode is `ALTENT`, `PCLABEL`, `MEMLABEL` or
`IMPLICIT_DEF` is passed over by the loop of `emitBasicBlock` whatever its
operands: the loop goes on with the next instruction in the same sink state,
with no call made (no word, no record) and no abort, the encoder and the
operand resolver not being run.  A block made only of such instructions
succeeds and makes the one call `StartMachineBasicBlock`. -/
theorem pseudo_markers_are_skipped {σ : Type} (encode : Opcode → List Nat → Nat)
    (MCE : MachineCodeEmitter σ) (MI : MachineInstr) (rest : List MachineInstr)
    (MBB : MachineBasicBlock) (s : σ) (log : List SinkCall)
    (hMI : MI.opcode = .ALTENT ∨ MI.opcode = .PCLABEL ∨ MI.opcode = .MEMLABEL
      ∨ MI.opcode = .IMPLICIT_DEF)
    (hall : ∀ I ∈ MBB.instrs, I.opcode = .ALTENT ∨ I.opcode = .PCLABEL ∨ I.opcode = .MEMLABEL
      ∨ I.opcode = .IMPLICIT_DEF) :
    emitInstrs encode (traced MCE) (MI :: rest) (s, log)
        = emitInstrs encode (traced MCE) rest (s, log)
      ∧ emitBasicBlock encode (traced MCE) MBB (s, log)
        = .ok (MCE.StartMachineBasicBlock MBB s, log ++ [.StartMachineBasicBlock MBB]) := by
  have hp : ∀ I : MachineInstr, (I.opcode = .ALTENT ∨ I.opcode = .PCLABEL ∨ I.opcode = .MEMLABEL
      ∨ I.opcode = .IMPLICIT_DEF) → isPseudoMarker I.opcode = true := by
    intro I h
    rcases h with h | h | h | h <;> rw [h] <;> rfl
  refine ⟨emitInstrs_cons_pseudo encode (traced MCE) MI rest (s, log) (hp MI hMI), ?_⟩
  have key : ∀ (instrs : List MachineInstr) (t : σ × List SinkCall),
      (∀ I ∈ instrs, isPseudoMarker I.opcode = true) →
      emitInstrs encode (traced MCE) instrs t = .ok t := by
    intro instrs t
    induction instrs with
    | nil => intro _; rfl
    | cons I is ih =>
      intro h
      rw [emitInstrs_cons_pseudo encode (traced MCE) I is t (h I (List.mem_cons_self I is))]
      exact ih (fun J hJ => h J (List.mem_cons_of_mem I hJ))
  exact key MBB.instrs _ (fun I hI => hp I (hall I hI))

/-- C15, at a concrete input: markers carrying a global, an unknown register and
a frame index are passed over against a buffer sink. -/
theorem pseudo_markers_are_skipped_sample :
    emitInstrs sampleEncode (traced bufferSink)
        (⟨.IMPLICIT_DEF, [.Register (.other 99)]⟩ :: sampleBlock.instrs) (⟨[], [], 0, [], 0⟩, [])
        = emitInstrs sampleEncode (traced bufferSink) sampleBlock.instrs (⟨[], [], 0, [], 0⟩, [])
      ∧ emitBasicBlock sampleEncode (traced bufferSink)
          ⟨7, [⟨.ALTENT, [.GlobalAddress ⟨1, false⟩]⟩, ⟨.PCLABEL, [.Register (.other 99)]⟩,
               ⟨.MEMLABEL, [.FrameIndex 1]⟩, ⟨.IMPLICIT_DEF, [.Register .R1]⟩]⟩
          (⟨[], [], 0, [], 0⟩, [])
        = .ok (bufferSink.StartMachineBasicBlock
                ⟨7, [⟨.ALTENT, [.GlobalAddress ⟨1, false⟩]⟩, ⟨.PCLABEL, [.Register (.other 99)]⟩,
                     ⟨.MEMLABEL, [.FrameIndex 1]⟩, ⟨.IMPLICIT_DEF, [.Register .R1]⟩]⟩
                ⟨[], [], 0, [], 0⟩,
               [] ++ [.StartMachineBasicBlock
                ⟨7, [⟨.ALTENT, [.GlobalAddress ⟨1, false⟩]⟩, ⟨.PCLABEL, [.Register (.other 99)]⟩,
                     ⟨.MEMLABEL, [.FrameIndex 1]⟩, ⟨.IMPLICIT_DEF, [.Register .R1]⟩]⟩]) :=
  pseudo_markers_are_skipped sampleEncode bufferSink ⟨.IMPLICIT_DEF, [.Register (.other 99)]⟩
    sampleBlock.instrs
    ⟨7, [⟨.ALTENT, [.GlobalAddress ⟨1, false⟩]⟩, ⟨.PCLABEL, [.Register (.other 99)]⟩,
         ⟨.MEMLABEL, [.FrameIndex 1]⟩, ⟨.IMPLICIT_DEF, [.Register .R1]⟩]⟩
    ⟨[], [], 0, [], 0⟩ [] (Or.inr (Or.inr (Or.inr rfl)))
    (by
      intro I hI
      simp only [List.mem_cons, List.mem_singleton, List.not_mem_nil, or_false] at hI
      rcases hI with h | h | h | h <;> rw [h] <;> simp)

/-! ### Aborts and the sink -/

theorem getMachineOpValue_eq_dropSink {σ : Type} (MCE : MachineCodeEmitter σ)
    (MI : MachineInstr) (MO : MachineOperand) (s : σ) :
    getMachineOpValue MCE MI MO s = dropSinkOnAbort (getMachineOpValueWithSink MCE MI MO s) := by
  cases MO with
  | Register r =>
    rw [getMachineOpValue_reg]
    show _ = dropSinkOnAbort (getAlphaRegNumber r, s)
    cases getAlphaRegNumber r <;> rfl
  | Immediate c => rfl
  | GlobalAddress gv =>
    rw [getMachineOpValue_global]
    show _ = dropSinkOnAbort (match relocSwitch MI with
      | .error e => (.error e, s)
      | .ok (Reloc, Offset, useGOT) =>
        (.ok 0, MCE.addRelocation
          (.getGV (MCE.getCurrentPCOffset s) Reloc gv Offset gv.isFunction useGOT) s))
    cases relocSwitch MI <;> rfl
  | ExternalSymbol name =>
    rw [getMachineOpValue_symbol]
    show _ = dropSinkOnAbort (match relocSwitch MI with
      | .error e => (.error e, s)
      | .ok (Reloc, Offset, _) =>
        (.ok 0, MCE.addRelocation
          (.getExtSym (MCE.getCurrentPCOffset s) Reloc name Offset true) s))
    cases relocSwitch MI <;> rfl
  | ConstantPoolIndex index =>
    rw [getMachineOpValue_cpi]
    show _ = dropSinkOnAbort (match relocSwitch MI with
      | .error e => (.error e, s)
      | .ok (Reloc, Offset, _) =>
        (.ok 0, MCE.addRelocation
          (.getConstPool (MCE.getCurrentPCOffset s) Reloc index Offset) s))
    cases relocSwitch MI <;> rfl
  | MachineBasicBlock mbb => rfl
  | FrameIndex index => rfl
  | JumpTableIndex index => rfl

theorem getMachineOpValueWithSink_abort {σ : Type} (MCE : MachineCodeEmitter σ)
    (MI : MachineInstr) (MO : MachineOperand) (s : σ) (e : Abort)
    (h : (getMachineOpValueWithSink MCE MI MO s).1 = .error e) :
    (getMachineOpValueWithSink MCE MI MO s).2 = s := by
  cases MO with
  | Register r => rfl
  | Immediate c => rfl
  | GlobalAddress gv =>
    revert h
    show (match relocSwitch MI with
      | .error e => ((.error e, s) : Except Abort Nat × σ)
      | .ok (Reloc, Offset, useGOT) =>
        (.ok 0, MCE.addRelocation
          (.getGV (MCE.getCurrentPCOffset s) Reloc gv Offset gv.isFunction useGOT) s)).1 = _ →
      (match relocSwitch MI with
      | .error e => ((.error e, s) : Except Abort Nat × σ)
      | .ok (Reloc, Offset, useGOT) =>
        (.ok 0, MCE.addRelocation
          (.getGV (MCE.getCurrentPCOffset s) Reloc gv Offset gv.isFunction useGOT) s)).2 = s
    cases relocSwitch MI with
    | error e1 => intro _; rfl
    | ok x => intro h; cases h
  | ExternalSymbol name =>
    revert h
    show (match relocSwitch MI with
      | .error e => ((.error e, s) : Except Abort Nat × σ)
      | .ok (Reloc, Offset, _) =>
        (.ok 0, MCE.addRelocation
          (.getExtSym (MCE.getCurrentPCOffset s) Reloc name Offset true) s)).1 = _ →
      (match relocSwitch MI with
      | .error e => ((.error e, s) : Except Abort Nat × σ)
      | .ok (Reloc, Offset, _) =>
        (.ok 0, MCE.addRelocation
          (.getExtSym (MCE.getCurrentPCOffset s) Reloc name Offset true) s)).2 = s
    cases relocSwitch MI with
    | error e1 => intro _; rfl
    | ok x => intro h; cases h
  | ConstantPoolIndex index =>
    revert h
    show (match relocSwitch MI with
      | .error e => ((.error e, s) : Except Abort Nat × σ)
      | .ok (Reloc, Offset, _) =>
        (.ok 0, MCE.addRelocation
          (.getConstPool (MCE.getCurrentPCOffset s) Reloc index Offset) s)).1 = _ →
      (match relocSwitch MI with
      | .error e => ((.error e, s) : Except Abort Nat × σ)
      | .ok (Reloc, Offset, _) =>
        (.ok 0, MCE.addRelocation
          (.getConstPool (MCE.getCurrentPCOffset s) Reloc index Offset) s)).2 = s
    cases relocSwitch MI with
    | error e1 => intro _; rfl
    | ok x => intro h; cases h
  | MachineBasicBlock mbb => cases h
  | FrameIndex index => rfl
  | JumpTableIndex index => rfl

theorem getAlphaRegNumber_of_not_mem (r : Reg) (h1 : r ∉ bankR) (h2 : r ∉ bankF) :
    getAlphaRegNumber r = .error .unhandledReg := by
  cases r <;> first
    | rfl
    | (exfalso; apply h1; simp [bankR]; done)
    | (exfalso; apply h2; simp [bankF])

theorem getAlphaRegNumber_of_mem (r : Reg) (h : r ∈ bankR ∨ r ∈ bankF) :
    ∃ n, getAlphaRegNumber r = .ok n := by
  cases r <;> first | exact ⟨_, rfl⟩ | (simp [bankR, bankF] at h)

/-- C20: a call of `getMachineOpValue` that aborts leaves the sink as it found
it: no `addRelocation` (nor any other call) has been made when it aborts.  It
aborts on a register outside `R0..R31`, `F0..F31`, on a global, external-symbol
or constant-pool operand whose opcode is outside the relocation table, and on
an unknown operand tag; it returns for a register of the two banks, for every
immediate, for every block reference, and for a global, external-symbol or
constant-pool operand whose opcode is in the table, provided, for `LDAg` and
`LDAHg`, that operand 3 of the instruction is an immediate. -/
theorem abort_leaves_sink_untouched {σ : Type} (MCE : MachineCodeEmitter σ)
    (MI : MachineInstr) (MO : MachineOperand) (s : σ) (log : List SinkCall) :
    getMachineOpValue (traced MCE) MI MO (s, log)
        = dropSinkOnAbort (getMachineOpValueWithSink (traced MCE) MI MO (s, log))
    ∧ (∀ e, (getMachineOpValueWithSink (traced MCE) MI MO (s, log)).1 = .error e →
        (getMachineOpValueWithSink (traced MCE) MI MO (s, log)).2 = (s, log))
    ∧ (∀ r, MO = .Register r → r ∉ bankR → r ∉ bankF →
        getMachineOpValueWithSink (traced MCE) MI MO (s, log)
          = (.error .unhandledReg, (s, log)))
    ∧ ((MO.isGlobal || MO.isSymbol || MO.isCPI) = true → inRelocTable MI.opcode = false →
        getMachineOpValueWithSink (traced MCE) MI MO (s, log)
          = (.error .unknownRelocatableInstruction, (s, log)))
    ∧ ((MO.isReg || MO.isImm || MO.isGlobal || MO.isSymbol || MO.isCPI || MO.isMBB) = false →
        getMachineOpValueWithSink (traced MCE) MI MO (s, log)
          = (.error .unknownMachineOperand, (s, log)))
    ∧ (∀ r, MO = .Register r → (r ∈ bankR ∨ r ∈ bankF) →
        ∃ n, getMachineOpValue (traced MCE) MI MO (s, log) = .ok (n, (s, log)))
    ∧ (∀ v, MO = .Immediate v →
        getMachineOpValue (traced MCE) MI MO (s, log) = .ok (toUnsigned v, (s, log)))
    ∧ (∀ B, MO = .MachineBasicBlock B →
        ∃ t, getMachineOpValue (traced MCE) MI MO (s, log) = .ok (0, t))
    ∧ ((MO.isGlobal || MO.isSymbol || MO.isCPI) = true → inRelocTable MI.opcode = true →
        (usesOffsetOperand MI.opcode = true → ∃ c, MI.operands[3]? = some (.Immediate c)) →
        ∃ t, getMachineOpValue (traced MCE) MI MO (s, log) = .ok (0, t)) := by
  have hatom := getMachineOpValueWithSink_abort (traced MCE) MI MO (s, log)
  refine ⟨getMachineOpValue_eq_dropSink _ _ _ _, hatom, ?_, ?_, ?_, ?_, ?_, ?_, ?_⟩
  · intro r hr h1 h2
    subst hr
    show (getAlphaRegNumber r, (s, log)) = _
    rw [getAlphaRegNumber_of_not_mem r h1 h2]
  · intro hMO hT
    have hk : specRelocKind MI.opcode = none := by
      cases hk : specRelocKind MI.opcode with
      | none => rfl
      | some k => simp [inRelocTable, hk] at hT
    have hsw := relocSwitch_not_in_table MI hk
    cases MO <;>
      simp [MachineOperand.isGlobal, MachineOperand.isSymbol, MachineOperand.isCPI] at hMO <;>
      simp [getMachineOpValueWithSink, MachineOperand.isReg, MachineOperand.isImm,
        MachineOperand.isGlobal, MachineOperand.isSymbol, MachineOperand.isCPI, hsw]
  · intro h
    cases MO <;>
      simp [MachineOperand.isReg, MachineOperand.isImm, MachineOperand.isGlobal,
        MachineOperand.isSymbol, MachineOperand.isCPI, MachineOperand.isMBB] at h <;> rfl
  · intro r hr hmem
    subst hr
    obtain ⟨n, hn⟩ := getAlphaRegNumber_of_mem r hmem
    exact ⟨n, by rw [getMachineOpValue_reg, hn]⟩
  · intro v hv
    subst hv
    rfl
  · intro B hB
    subst hB
    exact ⟨_, rfl⟩
  · intro hMO hT h3
    cases hk : specRelocKind MI.opcode with
    | none => simp [inRelocTable, hk] at hT
    | some k =>
      obtain ⟨off, got, hsw⟩ := relocSwitch_in_table MI k hk h3
      exact getMachineOpValue_relocated_succeeds (traced MCE) MI MO (s, log) k off got hMO hsw

/-! ### The retry loop -/

theorem emitBlocks_shape {σ : Type} (encode : Opcode → List Nat → Nat)
    (MCE : MachineCodeEmitter σ) (blocks : List MachineBasicBlock) (s : σ)
    (log : List SinkCall) (t : σ × List SinkCall)
    (h : emitBlocks encode (traced MCE) blocks (s, log) = .ok t) :
    ∃ gss : List (List (List MachineRelocation × Nat)),
      gss.length = blocks.length
      ∧ t = (replay MCE (blockCalls blocks gss) s, log ++ blockCalls blocks gss) := by
  induction blocks generalizing s log t with
  | nil =>
    simp only [emitBlocks] at h
    cases h
    exact ⟨[], rfl, by simp [blockCalls, replay]⟩
  | cons MBB rest ih =>
    simp only [emitBlocks] at h
    cases hb : emitBasicBlock encode (traced MCE) MBB (s, log) with
    | error e => rw [hb] at h; cases h
    | ok t1 =>
      rw [hb] at h
      dsimp only at h
      have hb1 : emitInstrs encode (traced MCE) MBB.instrs
          (MCE.StartMachineBasicBlock MBB s, log ++ [.StartMachineBasicBlock MBB]) = .ok t1 := hb
      obtain ⟨gs, ht1, _, _, _⟩ := emitInstrs_traced encode MCE MBB.instrs _ _ t1 hb1
      subst ht1
      obtain ⟨gss, hlen, ht⟩ := ih _ _ t h
      refine ⟨gs :: gss, by simp [hlen], ?_⟩
      rw [ht]
      simp [blockCalls, replay, SinkCall.run, replay_append, List.append_assoc]

theorem loopTurn_traced {σ : Type} (encode : Opcode → List Nat → Nat)
    (MCE : MachineCodeEmitter σ) (MF : MachineFunction) (s : σ) (log : List SinkCall)
    (b : Bool) (t : σ × List SinkCall)
    (h : loopTurn encode (traced MCE) MF (s, log) = .ok (b, t)) :
    ∃ gss : List (List (List MachineRelocation × Nat)),
      gss.length = MF.blocks.length
      ∧ t = (replay MCE (attemptCalls MF gss) s, log ++ attemptCalls MF gss) := by
  simp only [loopTurn] at h
  cases hb : emitFunctionBody encode (traced MCE) MF (s, log) with
  | error e => rw [hb] at h; cases h
  | ok t1 =>
    rw [hb] at h
    dsimp only at h
    have hb1 : emitBlocks encode (traced MCE) MF.blocks
        (MCE.startFunction MF s, log ++ [.startFunction MF]) = .ok t1 := hb
    obtain ⟨gss, hlen, ht1⟩ := emitBlocks_shape encode MCE MF.blocks _ _ t1 hb1
    subst ht1
    refine ⟨gss, hlen, ?_⟩
    injection h with h
    have h2 : ((traced MCE).finishFunction MF
        (replay MCE (blockCalls MF.blocks gss) (MCE.startFunction MF s),
          log ++ [SinkCall.startFunction MF] ++ blockCalls MF.blocks gss)).2 = t :=
      congrArg Prod.snd h
    rw [← h2]
    simp [traced, attemptCalls, replay, SinkCall.run, replay_append, List.append_assoc]

theorem runOnMachineFunction_succ {σ : Type} (encode : Opcode → List Nat → Nat)
    (MCE : MachineCodeEmitter σ) (MF : MachineFunction) (fuel : Nat) (s : σ) :
    runOnMachineFunction encode MCE MF (fuel + 1) s =
      match loopTurn encode MCE MF s with
      | .error e => some (.error e)
      | .ok (true, s2) => runOnMachineFunction encode MCE MF fuel s2
      | .ok (false, s2) => some (.ok (false, s2)) := by
  simp only [runOnMachineFunction, loopTurn]
  cases emitFunctionBody encode MCE MF s with
  | error e => rfl
  | ok s1 =>
    dsimp only
    rcases hfin : MCE.finishFunction MF s1 with ⟨b, s2⟩
    cases b <;> rfl

/-- The run of the loop when the sink retries exactly `k` times: it needs
`k + 1` turns and ends in the state `finishFunction` leaves after the last
body. -/
theorem runOnMachineFunction_of_retries {σ : Type} (encode : Opcode → List Nat → Nat)
    (MCE : MachineCodeEmitter σ) (MF : MachineFunction) (k : Nat) (s : σ)
    (h : RetriesExactly encode MCE MF k s) :
    ∃ u u1, emitFunctionBody encode MCE MF u = .ok u1
      ∧ (MCE.finishFunction MF u1).1 = false
      ∧ (∀ fuel, k < fuel →
          runOnMachineFunction encode MCE MF fuel s
            = some (.ok (false, (MCE.finishFunction MF u1).2)))
      ∧ (∀ fuel, fuel ≤ k → runOnMachineFunction encode MCE MF fuel s = none) := by
  induction k generalizing s with
  | zero =>
    obtain ⟨s1, h1⟩ := h
    have h1' := h1
    simp only [loopTurn] at h1
    cases hb : emitFunctionBody encode MCE MF s with
    | error e => rw [hb] at h1; cases h1
    | ok u1 =>
      rw [hb] at h1
      dsimp only at h1
      injection h1 with h1
      refine ⟨s, u1, hb, by rw [h1], ?_, ?_⟩
      · intro fuel hf
        obtain ⟨f, rfl⟩ : ∃ f, fuel = f + 1 := ⟨fuel - 1, by omega⟩
        rw [runOnMachineFunction_succ, h1', h1]
      · intro fuel hf
        have : fuel = 0 := by omega
        subst this
        rfl
  | succ k ih =>
    obtain ⟨s1, h1, hrest⟩ := h
    obtain ⟨u, u1, hb, hfin, hrun, hnone⟩ := ih s1 hrest
    refine ⟨u, u1, hb, hfin, ?_, ?_⟩
    · intro fuel hf
      obtain ⟨f, rfl⟩ : ∃ f, fuel = f + 1 := ⟨fuel - 1, by omega⟩
      rw [runOnMachineFunction_succ, h1]
      exact hrun f (by omega)
    · intro fuel hf
      cases fuel with
      | zero => rfl
      | succ f =>
        rw [runOnMachineFunction_succ, h1]
        exact hnone f (by omega)

/-- The calls of the loop when the sink retries exactly `k` times: `k + 1`
attempts, one after the other. -/
theorem retries_traced {σ : Type} (encode : Opcode → List Nat → Nat)
    (MCE : MachineCodeEmitter σ) (MF : MachineFunction) (k : Nat) (s : σ) (log : List SinkCall)
    (h : RetriesExactly encode (traced MCE) MF k (s, log)) :
    ∃ attempts : List (List (List (List MachineRelocation × Nat))),
      attempts.length = k + 1
      ∧ (∀ gss ∈ attempts, gss.length = MF.blocks.length)
      ∧ (∀ fuel, k < fuel →
          runOnMachineFunction encode (traced MCE) MF fuel (s, log)
            = some (.ok (false, (replay MCE (attempts.flatMap (attemptCalls MF)) s,
                                  log ++ attempts.flatMap (attemptCalls MF))))) := by
  induction k generalizing s log with
  | zero =>
    obtain ⟨t, h1⟩ := h
    obtain ⟨gss, hlen, ht⟩ := loopTurn_traced encode MCE MF s log false t h1
    refine ⟨[gss], rfl, ?_, ?_⟩
    · intro g hg
      simp at hg
      rw [hg]
      exact hlen
    · intro fuel hf
      obtain ⟨f, rfl⟩ : ∃ f, fuel = f + 1 := ⟨fuel - 1, by omega⟩
      rw [runOnMachineFunction_succ, h1, ht]
      simp
  | succ k ih =>
    obtain ⟨t, h1, hrest⟩ := h
    obtain ⟨gss, hlen, ht⟩ := loopTurn_traced encode MCE MF s log true t h1
    subst ht
    obtain ⟨attempts, halen, hall, hrun⟩ := ih _ _ hrest
    refine ⟨gss :: attempts, by simp [halen], ?_, ?_⟩
    · intro g hg
      rcases List.mem_cons.1 hg with hg | hg
      · rw [hg]
        exact hlen
      · exact hall g hg
    · intro fuel hf
      obtain ⟨f, rfl⟩ : ∃ f, fuel = f + 1 := ⟨fuel - 1, by omega⟩
      rw [runOnMachineFunction_succ, h1]
      dsimp only
      rw [hrun f (by omega)]
      simp [replay_append, List.append_assoc]

theorem runOnMachineFunction_always_retry {σ : Type} (encode : Opcode → List Nat → Nat)
    (MCE : MachineCodeEmitter σ) (MF : MachineFunction)
    (hfin : ∀ u, (MCE.finishFunction MF u).1 = true) (fuel : Nat) (s : σ)
    (r : Except Abort (Bool × σ))
    (h : runOnMachineFunction encode MCE MF fuel s = some r) : ∃ e, r = .error e := by
  induction fuel generalizing s with
  | zero => cases h
  | succ f ih =>
    rw [runOnMachineFunction_succ] at h
    simp only [loopTurn] at h
    cases hb : emitFunctionBody encode MCE MF s with
    | error e =>
      rw [hb] at h
      injection h with h
      exact ⟨e, h.symm⟩
    | ok s1 =>
      rw [hb] at h
      dsimp only at h
      rcases hf : MCE.finishFunction MF s1 with ⟨b, s2⟩
      have hb1 := hfin s1
      rw [hf] at hb1 h
      dsimp only at hb1
      subst hb1
      exact ih s2 h

/-- C16: if the sink answers `true` to the first `k` calls of `finishFunction`
and `false` to call `k + 1`, `runOnMachineFunction` makes exactly `k + 1`
emission attempts and returns `false`: it needs `k + 1` turns of the loop
(with fuel `k` or less it is still looping), and the calls it makes are `k + 1`
attempts in a row, each `startFunction`, then for every block in order
`StartMachineBasicBlock` and the groups of the block, then `finishFunction`.
Nothing bounds `k`: against a sink whose `finishFunction` always answers
`true` the function never returns (it can only abort), and when no body aborts
it is still looping at every fuel. -/
theorem retry_loop_attempts {σ : Type} (encode : Opcode → List Nat → Nat)
    (MCE : MachineCodeEmitter σ) (MF : MachineFunction) (k : Nat) (s : σ) (log : List SinkCall)
    (h : RetriesExactly encode (traced MCE) MF k (s, log)) :
    (∃ attempts : List (List (List (List MachineRelocation × Nat))),
      attempts.length = k + 1
      ∧ (∀ gss ∈ attempts, gss.length = MF.blocks.length)
      ∧ (∀ fuel, k < fuel →
          runOnMachineFunction encode (traced MCE) MF fuel (s, log)
            = some (.ok (false, (replay MCE (attempts.flatMap (attemptCalls MF)) s,
                                  log ++ attempts.flatMap (attemptCalls MF)))))
      ∧ (∀ fuel, fuel ≤ k → runOnMachineFunction encode (traced MCE) MF fuel (s, log) = none))
    ∧ (∀ (τ : Type) (M : MachineCodeEmitter τ), (∀ u, (M.finishFunction MF u).1 = true) →
        (∀ fuel u r, runOnMachineFunction encode M MF fuel u = some r → ∃ e, r = .error e)
        ∧ ((∀ u, ∃ u1, emitFunctionBody encode M MF u = .ok u1) →
            ∀ fuel u, runOnMachineFunction encode M MF fuel u = none)) := by
  constructor
  · obtain ⟨attempts, hlen, hall, hrun⟩ := retries_traced encode MCE MF k s log h
    obtain ⟨_, _, _, _, _, hnone⟩ :=
      runOnMachineFunction_of_retries encode (traced MCE) MF k (s, log) h
    exact ⟨attempts, hlen, hall, hrun, hnone⟩
  · intro τ M hfin
    have hstop := runOnMachineFunction_always_retry encode M MF hfin
    refine ⟨hstop, ?_⟩
    intro hbody fuel
    induction fuel with
    | zero => intro u; rfl
    | succ f ih =>
      intro u
      obtain ⟨u1, hu1⟩ := hbody u
      rw [runOnMachineFunction_succ]
      simp only [loopTurn, hu1]
      rcases hf : M.finishFunction MF u1 with ⟨b, u2⟩
      have hb := hfin u1
      rw [hf] at hb
      dsimp only at hb
      subst hb
      exact ih u2

/-- C16, at a concrete input: a buffer sink that asks for two retries makes the
driver run three attempts (fuel 3 suffices, fuel 2 does not), and against the
sink that always asks for a retry the driver is still looping after 50 turns. -/
theorem retry_loop_attempts_sample :
    (∃ attempts : List (List (List (List MachineRelocation × Nat))),
      attempts.length = 3
      ∧ runOnMachineFunction sampleEncode (traced bufferSink) callFunction 3
            (⟨[], [], 0, [], 2⟩, [])
          = some (.ok (false,
              (replay bufferSink (attempts.flatMap (attemptCalls callFunction))
                  ⟨[], [], 0, [], 2⟩,
                [] ++ attempts.flatMap (attemptCalls callFunction))))
      ∧ runOnMachineFunction sampleEncode (traced bufferSink) callFunction 2
            (⟨[], [], 0, [], 2⟩, []) = none)
    ∧ runOnMachineFunction sampleEncode alwaysRetrySink callFunction 50 ⟨[], [], 0, [], 0⟩
        = none := by
  have hk : RetriesExactly sampleEncode (traced bufferSink) callFunction 2
      (⟨[], [], 0, [], 2⟩, []) := ⟨_, rfl, _, rfl, _, rfl⟩
  obtain ⟨⟨attempts, hlen, _, hrun, hnone⟩, hloop⟩ :=
    retry_loop_attempts sampleEncode bufferSink callFunction 2 ⟨[], [], 0, [], 2⟩ [] hk
  refine ⟨⟨attempts, hlen, hrun 3 (by omega), hnone 2 (by omega)⟩, ?_⟩
  refine (hloop Buffer alwaysRetrySink (fun _ => rfl)).2 ?_ 50 _
  intro u
  exact ⟨_, rfl⟩

/-! ### Two runs against sinks that report the same PC offsets -/

theorem Agree.mono {α β : Type} {Q Q1 : α → β → Prop} (hQ : ∀ x y, Q x y → Q1 x y)
    (r1 : Except Abort α) (r2 : Except Abort β) (h : Agree Q r1 r2) : Agree Q1 r1 r2 := by
  cases r1 <;> cases r2
  · exact h
  · exact h
  · exact h
  · exact hQ _ _ h

theorem run_traced {σ : Type} (MCE : MachineCodeEmitter σ) (c : SinkCall) (s : σ)
    (log : List SinkCall) : c.run (traced MCE) (s, log) = (c.run MCE s, log ++ [c]) := by
  cases c <;> rfl

theorem getMachineOpValue_sim {σ τ : Type} (M1 : MachineCodeEmitter σ)
    (M2 : MachineCodeEmitter τ) (R : σ → τ → Prop)
    (hpc : ∀ a b, R a b → M1.getCurrentPCOffset a = M2.getCurrentPCOffset b)
    (hcall : ∀ c a b, R a b → R (SinkCall.run M1 c a) (SinkCall.run M2 c b))
    (MI : MachineInstr) (MO : MachineOperand) (a : σ) (b : τ) (hR : R a b) :
    Agree (fun x y => x.1 = y.1 ∧ R x.2 y.2)
      (getMachineOpValue M1 MI MO a) (getMachineOpValue M2 MI MO b) := by
  have hp := hpc a b hR
  cases MO with
  | Register r =>
    rw [getMachineOpValue_reg, getMachineOpValue_reg]
    cases getAlphaRegNumber r with
    | error e => exact rfl
    | ok n => exact ⟨rfl, hR⟩
  | Immediate c => exact ⟨rfl, hR⟩
  | GlobalAddress gv =>
    rw [getMachineOpValue_global, getMachineOpValue_global]
    cases relocSwitch MI with
    | error e => exact rfl
    | ok x =>
      refine ⟨rfl, ?_⟩
      show R (M1.addRelocation _ a) (M2.addRelocation _ b)
      rw [hp]
      exact hcall (.addRelocation _) a b hR
  | ExternalSymbol name =>
    rw [getMachineOpValue_symbol, getMachineOpValue_symbol]
    cases relocSwitch MI with
    | error e => exact rfl
    | ok x =>
      refine ⟨rfl, ?_⟩
      show R (M1.addRelocation _ a) (M2.addRelocation _ b)
      rw [hp]
      exact hcall (.addRelocation _) a b hR
  | ConstantPoolIndex index =>
    rw [getMachineOpValue_cpi, getMachineOpValue_cpi]
    cases relocSwitch MI with
    | error e => exact rfl
    | ok x =>
      refine ⟨rfl, ?_⟩
      show R (M1.addRelocation _ a) (M2.addRelocation _ b)
      rw [hp]
      exact hcall (.addRelocation _) a b hR
  | MachineBasicBlock mbb =>
    rw [getMachineOpValue_mbb, getMachineOpValue_mbb]
    refine ⟨rfl, ?_⟩
    show R (M1.addRelocation _ a) (M2.addRelocation _ b)
    rw [hp]
    exact hcall (.addRelocation _) a b hR
  | FrameIndex index => exact rfl
  | JumpTableIndex index => exact rfl

theorem resolveOperands_sim {σ τ : Type} (M1 : MachineCodeEmitter σ)
    (M2 : MachineCodeEmitter τ) (R : σ → τ → Prop)
    (hpc : ∀ a b, R a b → M1.getCurrentPCOffset a = M2.getCurrentPCOffset b)
    (hcall : ∀ c a b, R a b → R (SinkCall.run M1 c a) (SinkCall.run M2 c b))
    (MI : MachineInstr) (ops : List MachineOperand) (a : σ) (b : τ) (hR : R a b) :
    Agree (fun x y => x.1 = y.1 ∧ R x.2 y.2)
      (resolveOperands M1 MI ops a) (resolveOperands M2 MI ops b) := by
  induction ops generalizing a b with
  | nil => exact ⟨rfl, hR⟩
  | cons MO rest ih =>
    have h1 := getMachineOpValue_sim M1 M2 R hpc hcall MI MO a b hR
    simp only [resolveOperands]
    cases hg1 : getMachineOpValue M1 MI MO a with
    | error e1 =>
      cases hg2 : getMachineOpValue M2 MI MO b with
      | error e2 =>
        rw [hg1, hg2] at h1
        exact h1
      | ok y =>
        rw [hg1, hg2] at h1
        exact h1.elim
    | ok x =>
      cases hg2 : getMachineOpValue M2 MI MO b with
      | error e2 =>
        rw [hg1, hg2] at h1
        exact h1.elim
      | ok y =>
        rw [hg1, hg2] at h1
        obtain ⟨v1, a1⟩ := x
        obtain ⟨v2, b1⟩ := y
        obtain ⟨hv, hR1⟩ := h1
        dsimp only at hv hR1 ⊢
        subst hv
        have h2 := ih a1 b1 hR1
        cases hr1 : resolveOperands M1 MI rest a1 with
        | error e1 =>
          cases hr2 : resolveOperands M2 MI rest b1 with
          | error e2 =>
            rw [hr1, hr2] at h2
            exact h2
          | ok y2 =>
            rw [hr1, hr2] at h2
            exact h2.elim
        | ok x2 =>
          cases hr2 : resolveOperands M2 MI rest b1 with
          | error e2 =>
            rw [hr1, hr2] at h2
            exact h2.elim
          | ok y2 =>
            rw [hr1, hr2] at h2
            obtain ⟨hvs, hR2⟩ := h2
            exact ⟨by rw [hvs], hR2⟩

theorem getBinaryCodeForInstr_sim {σ τ : Type} (encode : Opcode → List Nat → Nat)
    (M1 : MachineCodeEmitter σ) (M2 : MachineCodeEmitter τ) (R : σ → τ → Prop)
    (hpc : ∀ a b, R a b → M1.getCurrentPCOffset a = M2.getCurrentPCOffset b)
    (hcall : ∀ c a b, R a b → R (SinkCall.run M1 c a) (SinkCall.run M2 c b))
    (MI : MachineInstr) (a : σ) (b : τ) (hR : R a b) :
    Agree (fun x y => x.1 = y.1 ∧ R x.2 y.2)
      (getBinaryCodeForInstr encode M1 MI a) (getBinaryCodeForInstr encode M2 MI b) := by
  have h1 := resolveOperands_sim M1 M2 R hpc hcall MI MI.operands a b hR
  simp only [getBinaryCodeForInstr]
  cases hr1 : resolveOperands M1 MI MI.operands a with
  | error e1 =>
    cases hr2 : resolveOperands M2 MI MI.operands b with
    | error e2 =>
      rw [hr1, hr2] at h1
      exact h1
    | ok y =>
      rw [hr1, hr2] at h1
      exact h1.elim
  | ok x =>
    cases hr2 : resolveOperands M2 MI MI.operands b with
    | error e2 =>
      rw [hr1, hr2] at h1
      exact h1.elim
    | ok y =>
      rw [hr1, hr2] at h1
      obtain ⟨hvs, hR1⟩ := h1
      exact ⟨by rw [hvs], hR1⟩

theorem emitInstrs_sim {σ τ : Type} (encode : Opcode → List Nat → Nat)
    (M1 : MachineCodeEmitter σ) (M2 : MachineCodeEmitter τ) (R : σ → τ → Prop)
    (hpc : ∀ a b, R a b → M1.getCurrentPCOffset a = M2.getCurrentPCOffset b)
    (hcall : ∀ c a b, R a b → R (SinkCall.run M1 c a) (SinkCall.run M2 c b))
    (instrs : List MachineInstr) (a : σ) (b : τ) (hR : R a b) :
    Agree R (emitInstrs encode M1 instrs a) (emitInstrs encode M2 instrs b) := by
  induction instrs generalizing a b with
  | nil => exact hR
  | cons MI rest ih =>
    cases hp : isPseudoMarker MI.opcode with
    | true =>
      rw [emitInstrs_cons_pseudo encode M1 MI rest a hp,
        emitInstrs_cons_pseudo encode M2 MI rest b hp]
      exact ih a b hR
    | false =>
      rw [emitInstrs_cons_code encode M1 MI rest a hp,
        emitInstrs_cons_code encode M2 MI rest b hp]
      have h1 := getBinaryCodeForInstr_sim encode M1 M2 R hpc hcall MI a b hR
      cases hb1 : getBinaryCodeForInstr encode M1 MI a with
      | error e1 =>
        cases hb2 : getBinaryCodeForInstr encode M2 MI b with
        | error e2 =>
          rw [hb1, hb2] at h1
          exact h1
        | ok y =>
          rw [hb1, hb2] at h1
          exact h1.elim
      | ok x =>
        cases hb2 : getBinaryCodeForInstr encode M2 MI b with
        | error e2 =>
          rw [hb1, hb2] at h1
          exact h1.elim
        | ok y =>
          rw [hb1, hb2] at h1
          obtain ⟨w1, a1⟩ := x
          obtain ⟨w2, b1⟩ := y
          obtain ⟨hw, hR1⟩ := h1
          dsimp only at hw hR1 ⊢
          subst hw
          exact ih _ _ (hcall (.emitWordLE w1) a1 b1 hR1)

theorem emitBlocks_sim {σ τ : Type} (encode : Opcode → List Nat → Nat)
    (M1 : MachineCodeEmitter σ) (M2 : MachineCodeEmitter τ) (R : σ → τ → Prop)
    (hpc : ∀ a b, R a b → M1.getCurrentPCOffset a = M2.getCurrentPCOffset b)
    (hcall : ∀ c a b, R a b → R (SinkCall.run M1 c a) (SinkCall.run M2 c b))
    (blocks : List MachineBasicBlock) (a : σ) (b : τ) (hR : R a b) :
    Agree R (emitBlocks encode M1 blocks a) (emitBlocks encode M2 blocks b) := by
  induction blocks generalizing a b with
  | nil => exact hR
  | cons MBB rest ih =>
    have h1 : Agree R (emitBasicBlock encode M1 MBB a) (emitBasicBlock encode M2 MBB b) :=
      emitInstrs_sim encode M1 M2 R hpc hcall MBB.instrs _ _
        (hcall (.StartMachineBasicBlock MBB) a b hR)
    simp only [emitBlocks]
    cases hb1 : emitBasicBlock encode M1 MBB a with
    | error e1 =>
      cases hb2 : emitBasicBlock encode M2 MBB b with
      | error e2 =>
        rw [hb1, hb2] at h1
        exact h1
      | ok y =>
        rw [hb1, hb2] at h1
        exact h1.elim
    | ok x =>
      cases hb2 : emitBasicBlock encode M2 MBB b with
      | error e2 =>
        rw [hb1, hb2] at h1
        exact h1.elim
      | ok y =>
        rw [hb1, hb2] at h1
        exact ih x y h1

theorem samePC_pc {σ τ : Type} (M1 : MachineCodeEmitter σ) (M2 : MachineCodeEmitter τ)
    (a : σ) (b : τ) (h : SamePC M1 M2 a b) :
    M1.getCurrentPCOffset a = M2.getCurrentPCOffset b := h []

theorem samePC_call {σ τ : Type} (M1 : MachineCodeEmitter σ) (M2 : MachineCodeEmitter τ)
    (c : SinkCall) (a : σ) (b : τ) (h : SamePC M1 M2 a b) :
    SamePC M1 M2 (c.run M1 a) (c.run M2 b) := fun calls => h (c :: calls)

/-- Two attempts against traced sinks whose states are related by `R` and whose
logs are equal make the same calls and end in related states. -/
theorem emitBlocks_traced_sim {σ τ : Type} (encode : Opcode → List Nat → Nat)
    (M1 : MachineCodeEmitter σ) (M2 : MachineCodeEmitter τ) (R : σ → τ → Prop)
    (hpc : ∀ a b, R a b → M1.getCurrentPCOffset a = M2.getCurrentPCOffset b)
    (hcall : ∀ c a b, R a b → R (SinkCall.run M1 c a) (SinkCall.run M2 c b))
    (blocks : List MachineBasicBlock) (a : σ) (b : τ) (log : List SinkCall) (hR : R a b) :
    Agree (fun x y => R x.1 y.1 ∧ x.2 = y.2)
      (emitBlocks encode (traced M1) blocks (a, log))
      (emitBlocks encode (traced M2) blocks (b, log)) := by
  refine emitBlocks_sim encode (traced M1) (traced M2) (fun x y => R x.1 y.1 ∧ x.2 = y.2)
    ?_ ?_ blocks (a, log) (b, log) ⟨hR, rfl⟩
  · intro x y hxy
    exact hpc x.1 y.1 hxy.1
  · intro c x y hxy
    obtain ⟨x1, x2⟩ := x
    obtain ⟨y1, y2⟩ := y
    obtain ⟨h1, h2⟩ := hxy
    dsimp only at h1 h2
    subst h2
    rw [run_traced, run_traced]
    exact ⟨hcall c x1 y1 h1, rfl⟩

/-- C17: the emitter keeps nothing from one attempt to the next.  The calls of
an attempt are a function of the instruction stream and of the PC offsets the
sink reports: two sinks that report the same PC offsets get the same calls.
For a sink whose `startFunction` resets it, up to a relation `R` on sink
states that fixes the PC offset and is kept by every call, any two attempts
make the same calls and end in `R`-related states, and after any number `k`
of retries the driver ends in a state `R`-related to the one a single attempt
from any other state `fresh` ends in (followed by its `finishFunction`). -/
theorem reemission_is_idempotent {σ : Type} (encode : Opcode → List Nat → Nat)
    (MCE : MachineCodeEmitter σ) (R : σ → σ → Prop) (MF : MachineFunction)
    (hpc : ∀ a b, R a b → MCE.getCurrentPCOffset a = MCE.getCurrentPCOffset b)
    (hcall : ∀ c a b, R a b → R (SinkCall.run MCE c a) (SinkCall.run MCE c b))
    (hreset : ∀ a b, R (MCE.startFunction MF a) (MCE.startFunction MF b)) :
    (∀ (τ : Type) (M2 : MachineCodeEmitter τ) (a : σ) (b : τ), SamePC MCE M2 a b →
        Agree (fun x y => x.2 = y.2)
          (emitFunctionBody encode (traced MCE) MF (a, []))
          (emitFunctionBody encode (traced M2) MF (b, [])))
    ∧ (∀ a b : σ,
        Agree (fun x y => R x.1 y.1 ∧ x.2 = y.2)
          (emitFunctionBody encode (traced MCE) MF (a, []))
          (emitFunctionBody encode (traced MCE) MF (b, [])))
    ∧ (∀ (k : Nat) (s fresh : σ), RetriesExactly encode MCE MF k s →
        ∃ t u1,
          (∀ fuel, k < fuel →
            runOnMachineFunction encode MCE MF fuel s = some (.ok (false, t)))
          ∧ emitFunctionBody encode MCE MF fresh = .ok u1
          ∧ R t (MCE.finishFunction MF u1).2) := by
  refine ⟨?_, ?_, ?_⟩
  · intro τ M2 a b hab
    have h := emitBlocks_traced_sim encode MCE M2 (SamePC MCE M2) (samePC_pc MCE M2)
      (samePC_call MCE M2) MF.blocks (MCE.startFunction MF a) (M2.startFunction MF b)
      ([] ++ [.startFunction MF]) (samePC_call MCE M2 (.startFunction MF) a b hab)
    exact Agree.mono (fun x y hxy => hxy.2) _ _ h
  · intro a b
    exact emitBlocks_traced_sim encode MCE MCE R hpc hcall MF.blocks (MCE.startFunction MF a)
      (MCE.startFunction MF b) ([] ++ [.startFunction MF]) (hreset a b)
  · intro k s fresh hk
    obtain ⟨u, u1, hbody, _, hrun, _⟩ := runOnMachineFunction_of_retries encode MCE MF k s hk
    have hsim : Agree R (emitFunctionBody encode MCE MF u) (emitFunctionBody encode MCE MF fresh) :=
      emitBlocks_sim encode MCE MCE R hpc hcall MF.blocks _ _ (hreset u fresh)
    rw [hbody] at hsim
    cases hf : emitFunctionBody encode MCE MF fresh with
    | error e =>
      rw [hf] at hsim
      exact hsim.elim
    | ok v1 =>
      rw [hf] at hsim
      exact ⟨_, v1, hrun, rfl, hcall (.finishFunction MF) u1 v1 hsim⟩

theorem bufferSink_call_sameOutput (c : SinkCall) (a b : Buffer) (h : sameOutput a b) :
    sameOutput (c.run bufferSink a) (c.run bufferSink b) := by
  obtain ⟨h1, h2, h3, h4⟩ := h
  cases c <;> simp [SinkCall.run, bufferSink, sameOutput, h1, h2, h3, h4]

/-- C17, at a concrete input: the buffer sink started with leftovers and asking
for two retries ends with the words and records of a single attempt on an
empty buffer. -/
theorem reemission_is_idempotent_sample :
    ∃ t u1,
      runOnMachineFunction sampleEncode bufferSink sampleFunction 3
          ⟨[9], [.getBB 0 .reloc_bsr 1], 4, [], 2⟩ = some (.ok (false, t))
      ∧ emitFunctionBody sampleEncode bufferSink sampleFunction ⟨[], [], 0, [], 0⟩ = .ok u1
      ∧ t.words = u1.words ∧ t.relocs = u1.relocs := by
  have hk : RetriesExactly sampleEncode bufferSink sampleFunction 2
      ⟨[9], [.getBB 0 .reloc_bsr 1], 4, [], 2⟩ := ⟨_, rfl, _, rfl, _, rfl⟩
  obtain ⟨t, u1, hrun, hbody, hR⟩ :=
    (reemission_is_idempotent sampleEncode bufferSink sameOutput sampleFunction
      (fun _ _ h => h.2.2.1) bufferSink_call_sameOutput
      (fun _ _ => ⟨rfl, rfl, rfl, rfl⟩)).2.2 2 ⟨[9], [.getBB 0 .reloc_bsr 1], 4, [], 2⟩
      ⟨[], [], 0, [], 0⟩ hk
  exact ⟨t, u1, hrun 3 (by omega), hbody, hR.1, hR.2.1⟩

end Alpha
